import Mathlib

/-!
Shallow embedding of the analytical core of bloaty (src/bloaty.cc): the
symbol/reference graph model (class Program), the address-indexed RangeMap,
the name stripper, the Lengauer-Tarjan dominator calculator
(class DominatorCalculator), the weight propagation (CalculateWeights),
the reachability DFS (GC), and the vtable scanner (ParseVTables).

Conventions of the embedding:
* C++ pointers to Object records are modelled as indices into
  `Program.objects` (the arena of symbols, in insertion order); a null
  pointer is `Option.none`.
* `std::set` fields (refs, pred, bucket) are modelled as strictly
  ascending `List Nat`, inserted with `insertSorted`; iteration order of a
  `std::set<uint32_t>` is ascending, and the pointer order of a
  `std::set<Object*>` is modelled as ascending arena indices.
* `std::map` (RangeMap's ordered map) is a list of (key, value, size)
  entries kept sorted by key; `upper_bound`-then-step-back lookup becomes
  "last entry with key <= addr".
* Recursive DFS procedures take explicit fuel and return `Option`;
  `none` means the model ran out of fuel (the termination theorems show
  adequate fuel always returns `some`).
* Machine integers are Nat; the only place where uintptr_t wrap-around
  matters (the vmaddr - fileoff difference) uses subtraction mod 2^64.
* The external demangler child process (class Demangler) is a parameter
  `dem : String → String`.
-/

/-- Insert a value into a strictly ascending list, keeping it sorted and
duplicate-free; models `std::set<uint32_t>::insert` / a pointer set. -/
def insertSorted (x : Nat) : List Nat → List Nat
  | [] => [x]
  | y :: ys =>
    if x < y then x :: y :: ys
    else if x = y then y :: ys
    else y :: insertSorted x ys

/-- An address-keyed interval container: entries (key, value, size) sorted
by key; models `RangeMap<T>` backed by `std::map<uintptr_t, pair<T, size_t>>`. -/
abbrev RangeMap (α : Type) : Type := List (Nat × α × Nat)

/-- `RangeMap::Add`: `mappings_[addr] = make_pair(val, size)` — insert or
replace at the key, keeping the map sorted by key. -/
def RangeMap.add {α : Type} (m : RangeMap α) (addr size : Nat) (val : α) : RangeMap α :=
  match m with
  | [] => [(addr, val, size)]
  | (k, w) :: rest =>
    if addr < k then (addr, val, size) :: (k, w) :: rest
    else if addr = k then (addr, val, size) :: rest
    else (k, w) :: RangeMap.add rest addr size val

/-- Helper for `RangeMap::TryGet`: walk the sorted list remembering the last
entry whose key is `≤ addr` (that is the entry `--upper_bound(addr)` lands
on), then apply the validity check `it->first + it->second.second < addr`. -/
def RangeMap.tryGetGo {α : Type} (addr : Nat) : List (Nat × α × Nat) → Option (Nat × α × Nat) → Option α
  | [], best =>
    match best with
    | none => none
    | some (k, v, s) => if k + s < addr then none else some v
  | (k, v, s) :: rest, best =>
    if k ≤ addr then RangeMap.tryGetGo addr rest (some (k, v, s))
    else RangeMap.tryGetGo addr rest best

/-- `RangeMap::TryGet`: find `upper_bound(addr)`; miss if it is `begin()`
(empty map, or `addr` below the smallest key); otherwise step back to the
greatest key `≤ addr` and miss iff `key + size < addr`. -/
def RangeMap.tryGet {α : Type} (m : RangeMap α) (addr : Nat) : Option α :=
  RangeMap.tryGetGo addr m none

/-- The characters of a demangled name up to (not including) the first
parenthesis: `name.substr(0, name.find_first_of('('))`. -/
def stripChars (l : List Char) : List Char :=
  l.takeWhile (fun c => !(c = '('))

/-- Whether a name contains a parenthesis (`find_first_of('(') != npos`). -/
def hasParen (l : List Char) : Bool :=
  l.contains '('

/-- `NameStripper::StripName`: returns (true, prefix before first paren) when
the name has a parenthesis, (false, the name unchanged) otherwise. -/
def stripName (s : String) : Bool × String :=
  if hasParen s.data then (true, ⟨stripChars s.data⟩) else (false, s)

/-- Modelled from the spec: the Symbol/Object record is declared in bloaty.h,
which is not under src/. Fields follow the spec's data model (§3: id, mangled
name, pretty name, virtual address, size, is_data flag, owning file,
outgoing reference set, weight, max_weight) and the uses in src/bloaty.cc.
`refs` and `file` hold arena indices. -/
structure Obj where
  id : Nat := 0
  name : String := ""
  vmaddr : Nat := 0
  size : Nat := 0
  data : Bool := false
  prettyName : String := ""
  refs : List Nat := []
  weight : Nat := 0
  maxWeight : Nat := 0
  file : Option Nat := none
  deriving Repr, DecidableEq

/-- Modelled from the spec: the File record is declared in bloaty.h, which is
not under src/. Fields follow the spec's data model (§3: filename, set of
outgoing file→file references, source_line_weight). -/
structure FileRec where
  name : String := ""
  refs : List Nat := []
  sourceLineWeight : Nat := 0
  deriving Repr, DecidableEq

/-- Modelled from the spec: Object::SetSize is declared in bloaty.h, which is
not under src/; the spec's data model gives the symbol a "size in bytes"
attribute, so SetSize is modelled as assigning the size field. -/
def Obj.setSize (o : Obj) (s : Nat) : Obj :=
  { o with size := s }

/-- Read the arena slot `i` (dereference an `Object*`). Out-of-range reads
return the default record; they do not occur on states built by the API. -/
def getObj (objs : List Obj) (i : Nat) : Obj :=
  objs.getD i {}

/-- Write through an `Object*`: update arena slot `i` in place. -/
def updObj (objs : List Obj) (i : Nat) (f : Obj → Obj) : List Obj :=
  objs.set i (f (getObj objs i))

/-- Read a File arena slot. -/
def getFileRec (fs : List FileRec) (i : Nat) : FileRec :=
  fs.getD i {}

/-- Write through a `File*`. -/
def updFileRec (fs : List FileRec) (i : Nat) (f : FileRec → FileRec) : List FileRec :=
  fs.set i (f (getFileRec fs i))

/-- Lookup in the stripped-pretty-name table
(`std::unordered_map<std::string, Object*>`): `some v` means the key is
present with value `v`, where `v = none` models a stored null pointer. -/
def lookupA (t : List (String × Option Nat)) (s : String) : Option (Option Nat) :=
  match t with
  | [] => none
  | (k, v) :: rest => if k = s then some v else lookupA rest s

/-- Store a value in the stripped-pretty-name table, replacing any existing
entry for the key. -/
def setA (t : List (String × Option Nat)) (s : String) (v : Option Nat) : List (String × Option Nat) :=
  match t with
  | [] => [(s, v)]
  | (k, w) :: rest => if k = s then (s, v) :: rest else (k, w) :: setA rest s v

/-- The state of `class Program`. `entry` is `none` until `SetEntryPoint`
runs (in the C++ the member is left uninitialized by the constructor; the
model takes the unset state to be null). -/
structure Program where
  nextId : Nat := 1
  totalSize : Nat := 0
  files : List FileRec := []
  objects : List Obj := []
  strippedPrettyNames : List (String × Option Nat) := []
  objectsByAddr : RangeMap Nat := []
  fileOffsets : RangeMap Nat := []
  entry : Option Nat := none
  deriving Repr, DecidableEq

/-- `Program()` — next_id_ = 1, total_size_ = 0, no symbols. -/
def emptyProgram : Program := {}

/-- uintptr_t subtraction: `a - b` mod 2^64. -/
def usub64 (a b : Nat) : Nat :=
  (a + 2 ^ 64 - b % 2 ^ 64) % 2 ^ 64

/-- The pretty-naming tail of `Program::AddObject`: demangle the name, run
the stripper, and update the stripped-name table — first claimant gets the
stripped form as its pretty name; a collision gives the newcomer its full
demangled name and demotes a still-single prior claimant (re-demangling it
and nulling the table slot). -/
def prettyNames (dem : String → String) (p1 : Program) (idx : Nat) (name : String) : Program :=
  let demangled := dem name
  match stripName demangled with
  | (false, _) =>
    { p1 with objects := updObj p1.objects idx (fun o => { o with prettyName := demangled }) }
  | (true, stripped) =>
    match lookupA p1.strippedPrettyNames stripped with
    | none =>
      { p1 with
          strippedPrettyNames := setA p1.strippedPrettyNames stripped (some idx)
          objects := updObj p1.objects idx (fun o => { o with prettyName := stripped }) }
    | some none =>
      { p1 with objects := updObj p1.objects idx (fun o => { o with prettyName := demangled }) }
    | some (some ci) =>
      let objs2 := updObj p1.objects idx (fun o => { o with prettyName := demangled })
      let objs3 := updObj objs2 ci (fun o => { o with prettyName := dem (getObj objs2 ci).name })
      { p1 with
          objects := objs3
          strippedPrettyNames := setA p1.strippedPrettyNames stripped none }

/-- The arena/counter half of `Program::AddObject`:
`objects_.emplace(name, name)` returns the existing record when the name is
present, otherwise creates one; the function then unconditionally assigns a
fresh id, overwrites vmaddr/size/data, adds `size` to the total-size
counter, and indexes the symbol by address. -/
def addObjectCore (p : Program) (name : String) (vmaddr size : Nat) (data : Bool) : Program × Nat :=
  let found := p.objects.findIdx? (fun o => o.name == name)
  let idx := found.getD p.objects.length
  let objs0 := match found with
    | some _ => p.objects
    | none => p.objects ++ [{ name := name }]
  let objs1 := updObj objs0 idx (fun o =>
    ({ o with id := p.nextId, vmaddr := vmaddr, data := data, name := name }).setSize size)
  ({ p with
      objects := objs1
      nextId := p.nextId + 1
      totalSize := p.totalSize + size
      objectsByAddr := p.objectsByAddr.add vmaddr size idx }, idx)

/-- `Program::AddObject`: the arena/counter half followed by the
pretty-name phase; returns the new state and the arena index of the
returned `Object*`. -/
def Program.addObject (dem : String → String) (p : Program) (name : String)
    (vmaddr size : Nat) (data : Bool) : Program × Nat :=
  let core := addObjectCore p name vmaddr size data
  (prettyNames dem core.1 core.2 name, core.2)

/-- `Program::AddFileMapping`: store `vmaddr - fileoff` for the range
starting at `vmaddr` with length `filesize`. -/
def Program.addFileMapping (p : Program) (vmaddr fileoff filesize : Nat) : Program :=
  { p with fileOffsets := p.fileOffsets.add vmaddr filesize (usub64 vmaddr fileoff) }

/-- `Program::TryGetFileOffset`: on a hit return `vmaddr - diff`. -/
def Program.tryGetFileOffset (p : Program) (vmaddr : Nat) : Option Nat :=
  (p.fileOffsets.tryGet vmaddr).map (fun diff => usub64 vmaddr diff)

/-- `Program::SetEntryPoint`. -/
def Program.setEntryPoint (p : Program) (i : Nat) : Program :=
  { p with entry := some i }

/-- `Program::TryAddRef(Object* from, uintptr_t vmaddr)`: a null `from`
returns immediately; otherwise resolve `vmaddr` in the address index; on a
hit insert the symbol edge, and also the file-level edge when both
endpoints carry a file; on a miss do nothing. -/
def Program.tryAddRef (p : Program) (fromIdx : Option Nat) (vmaddr : Nat) : Program :=
  match fromIdx with
  | none => p
  | some i =>
    match p.objectsByAddr.tryGet vmaddr with
    | none => p
    | some toIdx =>
      let p' := { p with objects := updObj p.objects i (fun o => { o with refs := insertSorted toIdx o.refs }) }
      match (getObj p'.objects i).file, (getObj p'.objects toIdx).file with
      | some fi, some ft =>
        { p' with files := updFileRec p'.files fi (fun f => { f with refs := insertSorted ft f.refs }) }
      | _, _ => p'

/-- `Program::FindFunctionByName`: the returned `Object*` is an index, null
is `none`. -/
def Program.findFunctionByName (p : Program) (name : String) : Option Nat :=
  p.objects.findIdx? (fun o => o.name == name)

/-- `Program::FindObjectByAddr`. -/
def Program.findObjectByAddr (p : Program) (addr : Nat) : Option Nat :=
  p.objectsByAddr.tryGet addr

/-- `ProgramDataSink::AddRef(Object* from, Object* to)`:
`from->refs.insert(to)`. -/
def Program.addRefDirect (p : Program) (fromIdx toIdx : Nat) : Program :=
  { p with objects := updObj p.objects fromIdx (fun o => { o with refs := insertSorted toIdx o.refs }) }

/-! ## DominatorCalculator (Lengauer-Tarjan as coded in src/bloaty.cc) -/

/-- One slot of `DominatorCalculator::node_info_`, indexed by symbol id.
`std::vector::resize` value-initializes: all numeric fields 0, `node` null,
`pred`/`bucket` empty. -/
structure NodeRec where
  node : Option Nat := none
  parent : Nat := 0
  ancestor : Nat := 0
  label : Nat := 0
  semi : Nat := 0
  dom : Nat := 0
  pred : List Nat := []
  bucket : List Nat := []
  deriving Repr, DecidableEq

/-- The mutable state of a `DominatorCalculator` run: the DFS counter `n_`,
`node_info_`, and `ordering_` (Vertex). -/
structure DomState where
  n : Nat := 0
  nodeInfo : List NodeRec := []
  ordering : List Nat := []
  deriving Repr, DecidableEq

/-- Read `node_info_[v]`. -/
def DomState.info (s : DomState) (v : Nat) : NodeRec :=
  s.nodeInfo.getD v {}

/-- Update `node_info_[v]` in place. -/
def DomState.mod (s : DomState) (v : Nat) (f : NodeRec → NodeRec) : DomState :=
  { s with nodeInfo := s.nodeInfo.set v (f (s.info v)) }

/-- Read `ordering_[i]` (the `Vertex` accessor). -/
def DomState.vertex (s : DomState) (i : Nat) : Nat :=
  s.ordering.getD i 0

/-- Write `ordering_[i]`. -/
def DomState.setVertex (s : DomState) (i v : Nat) : DomState :=
  { s with ordering := s.ordering.set i v }

/-- The id of the object at arena index `i` (`pv->id`). -/
def objId (g : List Obj) (i : Nat) : Nat :=
  (getObj g i).id

/-- `DominatorCalculator::Initialize` (the DFS): for the node `pv` set
`node`, `Semi(v) = ++n_`, `Vertex(n_) = v`, `Label(v) = v`, `Ancestor(v) = 0`,
then for each ref target recurse when unvisited (`Semi(w) == 0`, setting
`Parent(w) = v` first) and afterwards insert `v` into `Pred(w)`.
The name `Initialize` itself is avoided for tooling reasons. -/
def domInit (g : List Obj) : Nat → DomState → Nat → Option DomState
  | 0, _, _ => none
  | fuel + 1, s, pi =>
    let v := objId g pi
    let s := s.mod v (fun r => { r with node := some pi })
    let s := { s with n := s.n + 1 }
    let s := s.mod v (fun r => { r with semi := s.n })
    let s := s.setVertex s.n v
    let s := s.mod v (fun r => { r with label := v, ancestor := 0 })
    (getObj g pi).refs.foldlM
      (fun s t =>
        let w := objId g t
        (if (s.info w).semi = 0 then
          domInit g fuel (s.mod w (fun r => { r with parent := v })) t
        else
          some s).map
          (fun s1 => s1.mod w (fun r => { r with pred := insertSorted v r.pred })))
      s

/-- `DominatorCalculator::Compress` (path compression), with fuel for the
recursion along the ancestor chain. -/
def compress : Nat → DomState → Nat → Option DomState
  | 0, _, _ => none
  | fuel + 1, s, v =>
    if (s.info ((s.info v).ancestor)).ancestor ≠ 0 then
      (compress fuel s ((s.info v).ancestor)).map (fun s1 =>
        let s2 :=
          if (s1.info ((s1.info ((s1.info v).ancestor)).label)).semi <
              (s1.info ((s1.info v).label)).semi then
            s1.mod v (fun r => { r with label := (s1.info ((s1.info v).ancestor)).label })
          else s1
        s2.mod v (fun r => { r with ancestor := (s2.info ((s2.info v).ancestor)).ancestor }))
    else some s

/-- `DominatorCalculator::Eval`: return `v` if it has no ancestor, otherwise
compress and return `Label(v)`. -/
def evalV (fuel : Nat) (s : DomState) (v : Nat) : Option (DomState × Nat) :=
  if (s.info v).ancestor = 0 then some (s, v)
  else (compress fuel s v).map (fun s1 => (s1, (s1.info v).label))

/-- The list `[k, k-1, ..., 1]` — the index sequence of the main loop
`for (uint32_t i = n_ - 1; i > 0; --i)` when started at `k = n_ - 1`. -/
def downTo1 : Nat → List Nat
  | 0 => []
  | k + 1 => (k + 1) :: downTo1 k

/-- One iteration of the main Lengauer-Tarjan loop for index `i`:
update `Semi(w)` over `Pred(w)`, insert `w` into `Bucket(Vertex(Semi(w)))`,
`Link(Parent(w), w)`, then for every `v` in `Bucket(Parent(w))` (the bucket
is not cleared by the source) assign `Dom(v)`. -/
def mainStep (cfuel : Nat) (s : DomState) (i : Nat) : Option DomState := do
  let w := s.vertex i
  let s ← (s.info w).pred.foldlM
    (fun (s : DomState) v => do
      let (s, u) ← evalV cfuel s v
      if (s.info u).semi < (s.info w).semi then
        pure (s.mod w (fun r => { r with semi := (s.info u).semi }))
      else
        pure s)
    s
  let s := s.mod (s.vertex ((s.info w).semi)) (fun r => { r with bucket := insertSorted w r.bucket })
  let s := s.mod w (fun r => { r with ancestor := (s.info w).parent })
  let s ← (s.info ((s.info w).parent)).bucket.foldlM
    (fun (s : DomState) v => do
      let (s, u) ← evalV cfuel s v
      pure (s.mod v (fun r =>
        { r with dom := if (s.info u).semi < (s.info v).semi then u else (s.info w).parent })))
    s
  pure s

/-- One iteration of the forward pass
(`if (Dom(w) != Vertex(Semi(w))) Dom(w) = Dom(Dom(w))`). -/
def forwardStep (s : DomState) (i : Nat) : DomState :=
  let w := s.vertex i
  if (s.info w).dom ≠ s.vertex ((s.info w).semi) then
    s.mod w (fun r => { r with dom := (s.info ((s.info w).dom)).dom })
  else s

/-- `DominatorCalculator::CalculateDominators(root, total)`: resize the state
to `total` zeroed slots, run the DFS, run the main loop for
`i = n_-1 .. 1`, run the forward pass for `i = 1 .. n_-1`, and finally set
`Dom(r) = 0`. `dfuel`/`cfuel` are the fuels of the DFS and of path
compression. -/
def calculateDominators (g : List Obj) (rootIdx total dfuel cfuel : Nat) : Option DomState := do
  let s0 : DomState :=
    { n := 0
      nodeInfo := List.replicate total {}
      ordering := List.replicate total 0 }
  let s1 ← domInit g dfuel s0 rootIdx
  let s2 ← (downTo1 (s1.n - 1)).foldlM (fun s i => mainStep cfuel s i) s1
  let s3 := (List.range s1.n).foldl
    (fun s i => if 1 ≤ i then forwardStep s i else s) s2
  pure (s3.mod (objId g rootIdx) (fun r => { r with dom := 0 }))

/-- `DominatorCalculator::Calculate`: run `CalculateDominators`, then walk
`node_info_` and emit `info.node → node_info_[info.dom].node` for every slot
whose `node` is set (reachable) and whose `dom` is nonzero (not the root).
The result is the dominator map as a list of
(object index, dominator object index) in id order; the stored value is the
`Object*` found in the dominator's slot (null is `none`). -/
def calculateMap (g : List Obj) (rootIdx total dfuel cfuel : Nat) : Option (List (Nat × Option Nat)) :=
  (calculateDominators g rootIdx total dfuel cfuel).map (fun s =>
    s.nodeInfo.foldr
      (fun r acc =>
        match r.node with
        | none => acc
        | some pi => if r.dom = 0 then acc else (pi, (s.info r.dom).node) :: acc)
      [])

/-! ## Weight propagation, reachability, reports, vtable scan -/

/-- `Program::CalculateWeights(obj, dominators, seen)`: return unchanged if
`obj` is already in `seen`; otherwise mark it, set
`weight = size; max_weight = weight`, recurse into each ref target folding
`max_weight = max(max_weight, target->max_weight)` after each child, and
finally add `weight` to the dominator's weight when the dominator map has an
entry (the map's value is the possibly-null `Object*`; crediting through a
null pointer would be undefined behaviour in the source and is modelled,
like a missing entry, as no credit). State is (objects arena, seen set). -/
def calcW (dom : List (Nat × Option Nat)) : Nat → List Obj × List Nat → Nat → Option (List Obj × List Nat)
  | 0, _, _ => none
  | fuel + 1, (objs, seen), i =>
    if i ∈ seen then some (objs, seen)
    else
      let seen := i :: seen
      let objs := updObj objs i (fun o =>
        let o := { o with weight := o.size }
        { o with maxWeight := o.weight })
      ((getObj objs i).refs.foldlM
          (fun (st : List Obj × List Nat) t =>
            (calcW dom fuel st t).map (fun st1 =>
              (updObj st1.1 i (fun o =>
                { o with maxWeight := max o.maxWeight (getObj st1.1 t).maxWeight }), st1.2)))
          (objs, seen)).map
        (fun st2 =>
          match List.lookup i dom with
          | some (some d) =>
            (updObj st2.1 d (fun o => { o with weight := o.weight + (getObj st2.1 i).weight }), st2.2)
          | _ => st2)

/-- `Program::GC(obj, garbage, stack)`: return unchanged unless `obj` is
still in the garbage set; otherwise erase it and recurse into its refs.
The state additionally records the visit order (the stack pushes of the
source, which exist for tracing). -/
def gcRun (g : List Obj) : Nat → Nat → List Nat × List Nat → Option (List Nat × List Nat)
  | 0, _, _ => none
  | fuel + 1, i, (garbage, visited) =>
    if i ∈ garbage then
      (getObj g i).refs.foldlM
        (fun st c => gcRun g fuel c st)
        (garbage.erase i, visited ++ [i])
    else some (garbage, visited)

/-- `Program::GCFiles(file, garbage)`. -/
def gcFilesRun (fs : List FileRec) : Nat → Nat → List Nat → Option (List Nat)
  | 0, _, _ => none
  | fuel + 1, i, garbage =>
    if i ∈ garbage then
      (getFileRec fs i).refs.foldlM
        (fun st c => gcFilesRun fs fuel c st)
        (garbage.erase i)
    else some garbage

/-- `Program::PrintGarbage`: fatal (`exit(1)`) with a diagnostic when the
entry point is unset; otherwise run the object GC from the entry and, when
the entry's symbol has a file, the file GC from that file. Returns
((total objects, garbage objects), optional (total files, garbage files)).
The inner `Option` on counts is the fuel escape of the model; fuel
`objects.length + 1` is adequate (see the termination theorems). -/
def Program.printGarbage (p : Program) : Except String ((Nat × Nat) × Option (Nat × Nat)) :=
  match p.entry with
  | none => Except.error "Error: Can't calculate garbage without entry point.\n"
  | some e =>
    match gcRun p.objects (p.objects.length + 1) e (List.range p.objects.length, []) with
    | none => Except.error "model: out of fuel"
    | some (garbage, _) =>
      let fileCounts :=
        match (getObj p.objects e).file with
        | none => none
        | some fi =>
          match gcFilesRun p.files (p.files.length + 1) fi (List.range p.files.length) with
          | none => none
          | some fgarbage => some (p.files.length, fgarbage.length)
      Except.ok ((p.objects.length, garbage.length), fileCounts)

/-- `Program::PrintSymbolsByTransitiveWeight`: when the entry point is unset
the source only writes "Transitive weight graph requires entry point." to
stderr and then falls through into `DominatorCalculator::Calculate(entry_, …)`
with a null root, dereferencing it (`pr->id`) — modelled as producing the
diagnostic list together with no result. With an entry point set it computes
the dominator map, runs the weight pass from the entry, and records
`max_weight_ = entry_->max_weight`; the result is the final arena (from
which the report rows and graph.dot are printed) paired with the visited
set. -/
def Program.printSymbolsByTransitiveWeight (p : Program) :
    List String × Option (List Obj × List Nat × Nat) :=
  let errs :=
    match p.entry with
    | none => ["Transitive weight graph requires entry point."]
    | some _ => []
  match p.entry with
  | none => (errs, none)
  | some e =>
    match calculateMap p.objects e p.nextId (p.objects.length + 1) p.nextId with
    | none => (errs, none)
    | some dom =>
      match calcW dom (p.objects.length + 1) (p.objects, []) e with
      | none => (errs, none)
      | some (objs, seen) => (errs, some (objs, seen, (getObj objs e).maxWeight))

/-- The file offsets visited by the vtable scan loop
`for (size_t i = 0; i < size; i += sizeof(uintptr_t))`, with fuel (the loop
runs at most `size` iterations when the pointer size is positive). -/
def scanLoop (ptr : Nat) : Nat → Nat → Nat → List Nat
  | 0, _, _ => []
  | fuel + 1, i, size => if i < size then i :: scanLoop ptr fuel (i + ptr) size else []

/-- The offsets `0, ptr, 2*ptr, …` strictly below `size`. -/
def scanOffsets (ptr size : Nat) : List Nat :=
  scanLoop ptr (size + 1) 0 size

/-- The `TryAddRef` calls `ParseVTables` makes: one per data symbol whose
vmaddr resolves in the file-offset map, per scanned word; `fileWord off` is
the pointer-sized word the binary holds at file offset `off`. -/
def vtableCalls (p : Program) (ptr : Nat) (fileWord : Nat → Nat) : List (Nat × Nat) :=
  (List.range p.objects.length).flatMap (fun i =>
    let o := getObj p.objects i
    if o.data then
      match p.tryGetFileOffset o.vmaddr with
      | none => []
      | some base => (scanOffsets ptr o.size).map (fun off => (i, fileWord (base + off)))
    else [])

/-- `ParseVTables`: replay every scanned word through `Program::TryAddRef`.
(The scan reads `size`, `data`, `vmaddr` and the file-offset map, none of
which `TryAddRef` mutates, so precomputing the call list is faithful.) -/
def parseVTables (p : Program) (ptr : Nat) (fileWord : Nat → Nat) : Program :=
  (vtableCalls p ptr fileWord).foldl (fun q c => q.tryAddRef (some c.1) c.2) p

/-! ## Concrete programs used by the claim theorems -/

/-- The identity demangler: `c++filt` echoes tokens it does not recognize,
and the spec's demangler contract returns the input unchanged when it is
not a mangled name. All concrete examples use already-readable names. -/
def demId : String → String := fun s => s

/-- The spec's linear-chain scenario: A(10) → B(20) → C(30), entry A. -/
def chain3 : Program :=
  let st := emptyProgram.addObject demId "A" 256 10 false
  let a := st.2
  let st := st.1.addObject demId "B" 512 20 false
  let b := st.2
  let st := st.1.addObject demId "C" 768 30 false
  let c := st.2
  (((st.1.addRefDirect a b).addRefDirect b c).setEntryPoint a)

/-- A four-node chain A(10) → B(20) → C(30) → D(5), entry A. -/
def chain4 : Program :=
  let st := emptyProgram.addObject demId "A" 256 10 false
  let a := st.2
  let st := st.1.addObject demId "B" 512 20 false
  let b := st.2
  let st := st.1.addObject demId "C" 768 30 false
  let c := st.2
  let st := st.1.addObject demId "D" 1024 5 false
  let d := st.2
  ((((st.1.addRefDirect a b).addRefDirect b c).addRefDirect c d).setEntryPoint a)

/-- The spec's cycle scenario: A(10) → B(20) → C(30) → B, entry A. -/
def cycleP : Program :=
  let st := emptyProgram.addObject demId "A" 256 10 false
  let a := st.2
  let st := st.1.addObject demId "B" 512 20 false
  let b := st.2
  let st := st.1.addObject demId "C" 768 30 false
  let c := st.2
  ((((st.1.addRefDirect a b).addRefDirect b c).addRefDirect c b).setEntryPoint a)

/-- One symbol "A" at address 256 with size 16. -/
def pC5 : Program := (emptyProgram.addObject demId "A" 256 16 false).1

/-- One data symbol of size 12 (not a multiple of the pointer size 8) whose
address resolves through a file mapping. -/
def pC7 : Program :=
  ((emptyProgram.addObject demId "V" 4096 12 true).1).addFileMapping 4096 1024 4096

/-- A program whose entry point was never set. -/
def pNoEntry : Program := (emptyProgram.addObject demId "A" 256 10 false).1

/-- The same name "foo(int)" added twice. -/
def pC8a : Program :=
  ((emptyProgram.addObject demId "foo(int)" 16 1 false).1.addObject demId "foo(int)" 16 1 false).1

/-! ## Claim theorems: concrete evaluations -/

/-- C1 (code bug). Weight conservation fails on the reference graph of the
spec's own linear-chain scenario: with entry A over A(10) → B(20) → C(30),
one weight-propagation pass after dominator computation leaves the entry
with weight 30, while the sum of `size` over the symbols the pass reaches is
60. (C is the last DFS vertex; the main dominator loop
`for (i = n_ - 1; i > 0; --i)` never processes it, so it has no dominator
entry and its 30 bytes are credited to nobody.) -/
theorem c1_conservation_fails_on_chain :
    (chain3.printSymbolsByTransitiveWeight).2.map
        (fun r => ((getObj r.1 0).weight, (r.2.1.map (fun j => (getObj r.1 j).size)).sum))
      = some (30, 60)
    ∧ ¬ ((30 : Nat) = 60) := by
  constructor
  · decide
  · decide

/-- C2 (code bug). On the linear chain A → B → C with entry A all three
symbols are reachable (the GC from the entry leaves no garbage), yet the
computed dominator map contains only the entry for B (index 1 ↦ index 0):
the reachable non-root C (index 2) is absent, because the main loop of
`CalculateDominators` iterates `i = n_-1 .. 1` over DFS numbers that start
at 1, skipping the last-numbered vertex, so `Dom(C)` keeps its zeroed value
and `Calculate` drops it. The spec expects `C ← B`. -/
theorem c2_dominator_map_misses_reachable_vertex :
    calculateMap chain3.objects 0 chain3.nextId 4 4 = some [(1, some 0)]
    ∧ gcRun chain3.objects 4 0 (List.range 3, []) = some ([], [0, 1, 2]) := by
  constructor
  · decide
  · decide

/-- C6 (code bug). With the entry point unset, `PrintGarbage` does fail
fatally with a descriptive error, but `PrintSymbolsByTransitiveWeight` only
writes its diagnostic to stderr and then proceeds into
`DominatorCalculator::Calculate` with the null entry, dereferencing it
(modelled: the diagnostic is emitted and no result exists). -/
theorem c6_missing_entry_point :
    pNoEntry.printGarbage = Except.error "Error: Can't calculate garbage without entry point.\n"
    ∧ pNoEntry.printSymbolsByTransitiveWeight
        = (["Transitive weight graph requires entry point."], none) := by
  constructor
  · rfl
  · decide

/-- C3 (counterexample). Re-adding a name is not idempotent: after
`add_object("f", 100, 5, false)` then `add_object("f", 200, 7, true)` the
second call does return the same record (index 0), but the record's id has
changed (2, not 1), its size was overwritten (7, not 5), and the total-size
counter grew from 5 to 12. -/
theorem c3_counterexample :
    ((emptyProgram.addObject demId "f" 100 5 false).1.addObject demId "f" 200 7 true).2 = 0
    ∧ ¬ ((getObj ((emptyProgram.addObject demId "f" 100 5 false).1.addObject demId "f" 200 7 true).1.objects 0).id
        = (getObj (emptyProgram.addObject demId "f" 100 5 false).1.objects 0).id)
    ∧ ¬ ((getObj ((emptyProgram.addObject demId "f" 100 5 false).1.addObject demId "f" 200 7 true).1.objects 0).size
        = (getObj (emptyProgram.addObject demId "f" 100 5 false).1.objects 0).size)
    ∧ ¬ (((emptyProgram.addObject demId "f" 100 5 false).1.addObject demId "f" 200 7 true).1.totalSize
        = (emptyProgram.addObject demId "f" 100 5 false).1.totalSize) := by
  refine ⟨by decide, by decide, by decide, by decide⟩

/-- C4 (counterexample). On the chain A(10) → B(20) → C(30) → D(5) with
entry A the propagation pass visits A and leaves it with weight 60 but
max_weight 30 (the code folds only subtree maxima computed before the
dominator credits arrive), so `max_weight(s) ≥ weight(s)` fails at the
reachable symbol A: 30 < 60. -/
theorem c4_counterexample :
    (chain4.printSymbolsByTransitiveWeight).2.map
        (fun r => (r.2.1.contains 0, (getObj r.1 0).weight, (getObj r.1 0).maxWeight))
      = some (true, 60, 30)
    ∧ ¬ ((60 : Nat) ≤ 30) := by
  constructor
  · decide
  · decide

/-- C5 (counterexample). With a single symbol at address 256 of size 16,
`find_by_addr(vmaddr + size) = find_by_addr(272)` returns that same symbol
(index 0), not null and not a different symbol: the source's validity test
`key + size < addr` accepts `addr = key + size`. -/
theorem c5_counterexample :
    pC5.findObjectByAddr (256 + 16) = some 0 ∧ pC5.findObjectByAddr 256 = some 0 := by
  constructor
  · decide
  · decide

/-- C7 (counterexample). For a data symbol of size 12 with pointer size 8
the scan loop `for (i = 0; i < size; i += 8)` runs at offsets 0 and 8 —
two `TryAddRef` calls, reading a trailing word that extends past the
symbol's end — while `floor(12 / 8) = 1`. -/
theorem c7_counterexample :
    (vtableCalls pC7 8 (fun off => 100000 + off)).length = 2
    ∧ (getObj pC7.objects 0).size / 8 = 1
    ∧ (getObj pC7.objects 0).data = true := by
  refine ⟨by decide, by decide, by decide⟩

/-- C8 (counterexample). After adding the name "foo(int)" twice, exactly one
symbol has the stripped form "foo", yet its pretty name is the full
"foo(int)": the second add collides with the symbol's own earlier claim and
demotes it, so the claim's "exactly one symbol with a stripped form keeps
the stripped pretty name" fails for this add sequence. -/
theorem c8_counterexample :
    pC8a.objects.map (fun o => (o.name, o.prettyName)) = [("foo(int)", "foo(int)")]
    ∧ stripName (demId "foo(int)") = (true, "foo") := by
  constructor
  · decide
  · decide

/-! ## Arena access lemmas -/

lemma length_updObj (objs : List Obj) (i : Nat) (f : Obj → Obj) :
    (updObj objs i f).length = objs.length := by
  simp [updObj]

lemma getObj_updObj_self (objs : List Obj) (i : Nat) (f : Obj → Obj) (h : i < objs.length) :
    getObj (updObj objs i f) i = f (getObj objs i) := by
  simp [updObj, getObj, List.getD_eq_getElem?_getD, List.getElem?_set_self (by simpa using h)]

lemma getObj_updObj_ne (objs : List Obj) (i j : Nat) (f : Obj → Obj) (h : j ≠ i) :
    getObj (updObj objs i f) j = getObj objs j := by
  simp [updObj, getObj, List.getD_eq_getElem?_getD, List.getElem?_set_ne (Ne.symm h)]

lemma updObj_oob (objs : List Obj) (i : Nat) (f : Obj → Obj) (h : objs.length ≤ i) :
    updObj objs i f = objs := by
  simp [updObj, List.set_eq_of_length_le h]

/-! ## C10: TryAddRef no-ops -/

/-- C10. `TryAddRef` with a null `from` returns immediately with the program
unchanged, and likewise when the address resolves to no symbol in the
address index no edge, no file edge and no error is produced: the program
state is unchanged. -/
theorem c10_tryAddRef_noops (p : Program) (vmaddr : Nat) :
    p.tryAddRef none vmaddr = p
    ∧ ∀ i, p.objectsByAddr.tryGet vmaddr = none → p.tryAddRef (some i) vmaddr = p := by
  refine ⟨rfl, fun i h => ?_⟩
  simp [Program.tryAddRef, h]

/-- Witness for C10 at a concrete program and a concrete unmapped address. -/
theorem c10_tryAddRef_noops_witness :
    pC5.objectsByAddr.tryGet 9999 = none
    ∧ pC5.tryAddRef none 9999 = pC5
    ∧ pC5.tryAddRef (some 0) 9999 = pC5 :=
  ⟨by decide, (c10_tryAddRef_noops pC5 9999).1, (c10_tryAddRef_noops pC5 9999).2 0 (by decide)⟩

/-! ## C7: vtable scan word count -/

lemma scanLoop_length (ptr : Nat) (hp : 0 < ptr) :
    ∀ fuel i size, size - i < fuel →
      (scanLoop ptr fuel i size).length = (size - i + ptr - 1) / ptr := by
  intro fuel
  induction fuel with
  | zero => intro i size h; omega
  | succ fuel ih =>
    intro i size h
    by_cases hi : i < size
    · have h2 : size - (i + ptr) < fuel := by omega
      simp only [scanLoop, hi, if_true, List.length_cons, ih (i + ptr) size h2]
      by_cases hc : i + ptr ≤ size
      · have e : size - i + ptr - 1 = (size - (i + ptr) + ptr - 1) + ptr := by omega
        rw [e, Nat.add_div_right _ hp]
      · have e1 : size - (i + ptr) = 0 := by omega
        have e2 : size - i + ptr - 1 = (size - i - 1) + ptr := by omega
        rw [e1, e2, Nat.add_div_right _ hp, Nat.div_eq_of_lt (by omega),
          Nat.div_eq_of_lt (by omega)]
    · simp only [scanLoop, hi, if_false, List.length_nil]
      rw [Nat.div_eq_of_lt (by omega)]

lemma scanOffsets_length (ptr size : Nat) (hp : 0 < ptr) :
    (scanOffsets ptr size).length = (size + ptr - 1) / ptr := by
  have h := scanLoop_length ptr hp (size + 1) 0 size (by omega)
  simpa [scanOffsets] using h

lemma countP_flatMap {α β : Type} (p : β → Bool) (f : α → List β) (l : List α) :
    (l.flatMap f).countP p = (l.map (fun a => (f a).countP p)).sum := by
  induction l with
  | nil => rfl
  | cons a l ih => simp [List.flatMap_cons, List.countP_append, ih]

lemma sum_map_range_single (L : Nat → Nat) (n i : Nat) (hi : i < n)
    (g : Nat → Nat) (hg : ∀ j, g j = if j = i then L j else 0) :
    ((List.range n).map g).sum = L i := by
  induction n with
  | zero => omega
  | succ n ih =>
    rw [List.range_succ, List.map_append, List.sum_append]
    by_cases h : i = n
    · subst h
      have hz : ((List.range i).map g).sum = 0 := by
        apply List.sum_eq_zero
        intro x hx
        obtain ⟨j, hj, rfl⟩ := List.mem_map.mp hx
        have : j < i := List.mem_range.mp hj
        rw [hg]
        simp [Nat.ne_of_lt this]
      simp [hz, hg]
    · have hih := ih (by omega)
      have hn : ¬ n = i := fun hn => h hn.symm
      simp [hih, hg, hn]

/-- C7 (amended). For every data symbol whose file offset resolves, the
vtable scanner reads exactly ceil(size / pointer_size) pointer-sized words
and calls `TryAddRef` once per word (one call with that symbol as source per
scanned word). -/
theorem c7_amended (p : Program) (ptr : Nat) (fw : Nat → Nat) (i : Nat)
    (hp : 0 < ptr) (hi : i < p.objects.length)
    (hd : (getObj p.objects i).data = true)
    (hoff : ∃ base, p.tryGetFileOffset (getObj p.objects i).vmaddr = some base) :
    (vtableCalls p ptr fw).countP (fun c => c.1 == i)
      = ((getObj p.objects i).size + ptr - 1) / ptr := by
  obtain ⟨base, hb⟩ := hoff
  unfold vtableCalls
  rw [countP_flatMap]
  apply sum_map_range_single (fun _ => ((getObj p.objects i).size + ptr - 1) / ptr) _ i hi
  intro j
  by_cases hj : j = i
  · subst hj
    simp only [hd, if_true, hb, if_pos]
    rw [List.countP_map]
    have : ((fun c : Nat × Nat => c.1 == j) ∘ fun off => (j, fw (base + off)))
        = fun _ => true := by
      funext off
      simp
    rw [this]
    simp [scanOffsets_length _ _ hp]
  · by_cases hdj : (getObj p.objects j).data
    · simp only [hdj, if_true]
      cases hoj : p.tryGetFileOffset (getObj p.objects j).vmaddr with
      | none => simp [hj]
      | some b =>
        simp only [hj, if_false]
        rw [List.countP_map]
        have : ((fun c : Nat × Nat => c.1 == i) ∘ fun off => (j, fw (b + off)))
            = fun _ => false := by
          funext off
          simp [hj]
        rw [this]
        simp
    · simp [hdj, hj]

/-- Witness for C7 at the concrete size-12 data symbol with pointer size 8:
two words are scanned, matching ceil(12/8) = 2. -/
theorem c7_amended_witness :
    (0 : Nat) < 8 ∧ 0 < pC7.objects.length ∧ (getObj pC7.objects 0).data = true
    ∧ pC7.tryGetFileOffset (getObj pC7.objects 0).vmaddr = some 1024
    ∧ (vtableCalls pC7 8 (fun off => 100000 + off)).countP (fun c => c.1 == 0)
        = ((getObj pC7.objects 0).size + 8 - 1) / 8 :=
  ⟨by decide, by decide, by decide, by decide,
    c7_amended pC7 8 (fun off => 100000 + off) 0 (by decide) (by decide) (by decide)
      ⟨1024, by decide⟩⟩

/-! ## C5: RangeMap lookup semantics -/

/-- The validity check applied to the entry `--upper_bound(addr)` lands on:
miss iff `key + size < addr`. -/
def finishLE {α : Type} (addr : Nat) : Option (Nat × α × Nat) → Option α
  | none => none
  | some (k, v, s) => if k + s < addr then none else some v

/-- The last entry of the list whose key is `≤ addr` (on a sorted list, the
entry with the greatest key `≤ addr`). -/
def lastLE {α : Type} (addr : Nat) : List (Nat × α × Nat) → Option (Nat × α × Nat)
  | [] => none
  | x :: rest =>
    match lastLE addr rest with
    | some y => some y
    | none => if x.1 ≤ addr then some x else none

/-- Keep the first option when it is `some`, otherwise the second. -/
def lastOr {α : Type} (a b : Option α) : Option α :=
  match a with
  | some y => some y
  | none => b

/-- The ordered-map invariant: keys strictly increase along the list. -/
def sortedKeys {α : Type} (m : RangeMap α) : Prop :=
  List.Pairwise (fun a b => a.1 < b.1) m

/-- Membership after `RangeMap::Add`: every entry is the new one or an old
one. -/
lemma mem_add {α : Type} {m : RangeMap α} {addr size : Nat} {val : α} {e : Nat × α × Nat}
    (h : e ∈ m.add addr size val) : e = (addr, val, size) ∨ e ∈ m := by
  induction m with
  | nil =>
    simp only [RangeMap.add, List.mem_singleton] at h
    exact Or.inl h
  | cons x rest ih =>
    obtain ⟨k, w⟩ := x
    by_cases h1 : addr < k
    · simp only [RangeMap.add, h1, if_true] at h
      rcases List.mem_cons.mp h with rfl | h'
      · exact Or.inl rfl
      · exact Or.inr h'
    · by_cases h2 : addr = k
      · subst h2
        simp only [RangeMap.add, lt_irrefl, if_false, if_true] at h
        rcases List.mem_cons.mp h with rfl | h'
        · exact Or.inl rfl
        · exact Or.inr (List.mem_cons_of_mem _ h')
      · simp only [RangeMap.add, h1, h2, if_false] at h
        rcases List.mem_cons.mp h with rfl | h'
        · exact Or.inr (List.mem_cons_self _ _)
        · rcases ih h' with h'' | h''
          · exact Or.inl h''
          · exact Or.inr (List.mem_cons_of_mem _ h'')

/-- `RangeMap::Add` preserves the ordered-map invariant, so every reachable
map state is sorted. -/
lemma sortedKeys_add {α : Type} (m : RangeMap α) (addr size : Nat) (val : α)
    (h : sortedKeys m) : sortedKeys (m.add addr size val) := by
  unfold sortedKeys at h ⊢
  induction m with
  | nil => simp [RangeMap.add]
  | cons x rest ih =>
    obtain ⟨k, w⟩ := x
    rw [List.pairwise_cons] at h
    obtain ⟨hx, hrest⟩ := h
    by_cases h1 : addr < k
    · simp only [RangeMap.add, h1, if_true]
      refine List.pairwise_cons.mpr ⟨?_, List.pairwise_cons.mpr ⟨hx, hrest⟩⟩
      intro e he
      rcases List.mem_cons.mp he with rfl | he'
      · exact h1
      · exact lt_trans h1 (hx e he')
    · by_cases h2 : addr = k
      · subst h2
        simp only [RangeMap.add, lt_irrefl, if_false, if_true]
        refine List.pairwise_cons.mpr ⟨?_, hrest⟩
        intro e he
        have := hx e he
        omega
      · simp only [RangeMap.add, h1, h2, if_false]
        refine List.pairwise_cons.mpr ⟨?_, ih hrest⟩
        intro e he
        rcases mem_add he with rfl | he'
        · show k < addr
          omega
        · exact hx e he'

/-- The accumulator walk of `TryGet` computes the validity check applied to
the last entry with key `≤ addr`, falling back to the accumulator. -/
lemma tryGetGo_eq_lastLE {α : Type} (addr : Nat) :
    ∀ (m : List (Nat × α × Nat)) (best : Option (Nat × α × Nat)),
      RangeMap.tryGetGo addr m best = finishLE addr (lastOr (lastLE addr m) best) := by
  intro m
  induction m with
  | nil =>
    intro best
    cases best with
    | none => rfl
    | some y => rfl
  | cons x rest ih =>
    intro best
    obtain ⟨k, v, s⟩ := x
    by_cases h : k ≤ addr
    · simp only [RangeMap.tryGetGo, h, if_true, ih]
      cases hl : lastLE addr rest with
      | none => simp [lastLE, hl, lastOr, h]
      | some y => simp [lastLE, hl, lastOr]
    · simp only [RangeMap.tryGetGo, h, if_false, ih]
      cases hl : lastLE addr rest with
      | none => simp [lastLE, hl, lastOr, h]
      | some y => simp [lastLE, hl, lastOr]

/-- `TryGet` in terms of the greatest-key entry. -/
lemma tryGet_eq_lastLE {α : Type} (m : RangeMap α) (addr : Nat) :
    m.tryGet addr = finishLE addr (lastLE addr m) := by
  rw [RangeMap.tryGet, tryGetGo_eq_lastLE]
  cases lastLE addr m with
  | none => rfl
  | some y => rfl

/-- A found entry is a member with key `≤ addr`. -/
lemma lastLE_mem {α : Type} {addr : Nat} :
    ∀ {m : List (Nat × α × Nat)} {y}, lastLE addr m = some y → y ∈ m ∧ y.1 ≤ addr := by
  intro m
  induction m with
  | nil => intro y h; simp [lastLE] at h
  | cons x rest ih =>
    intro y h
    simp only [lastLE] at h
    cases hl : lastLE addr rest with
    | some z =>
      rw [hl] at h
      obtain ⟨hz, hk⟩ := ih hl
      cases h
      exact ⟨List.mem_cons_of_mem _ hz, hk⟩
    | none =>
      rw [hl] at h
      by_cases hx : x.1 ≤ addr
      · rw [if_pos hx] at h
        cases h
        exact ⟨List.mem_cons_self _ _, hx⟩
      · rw [if_neg hx] at h
        cases h

/-- A `none` result means no entry has key `≤ addr`. -/
lemma lastLE_none {α : Type} {addr : Nat} :
    ∀ {m : List (Nat × α × Nat)}, lastLE addr m = none → ∀ e ∈ m, ¬ e.1 ≤ addr := by
  intro m
  induction m with
  | nil => intro _ e he; simp at he
  | cons x rest ih =>
    intro h e he
    simp only [lastLE] at h
    cases hl : lastLE addr rest with
    | some z => rw [hl] at h; cases h
    | none =>
      rw [hl] at h
      by_cases hx : x.1 ≤ addr
      · rw [if_pos hx] at h; cases h
      · rcases List.mem_cons.mp he with rfl | he'
        · exact hx
        · exact ih hl e he'

/-- On a sorted map the found entry has the greatest key `≤ addr`. -/
lemma lastLE_greatest {α : Type} {addr : Nat} :
    ∀ {m : List (Nat × α × Nat)}, List.Pairwise (fun a b => a.1 < b.1) m →
      ∀ {y}, lastLE addr m = some y → ∀ e ∈ m, e.1 ≤ addr → e.1 ≤ y.1 := by
  intro m
  induction m with
  | nil => intro _ y h; simp [lastLE] at h
  | cons x rest ih =>
    intro hs y h e he hek
    rw [List.pairwise_cons] at hs
    obtain ⟨hx, hrest⟩ := hs
    simp only [lastLE] at h
    cases hl : lastLE addr rest with
    | some z =>
      rw [hl] at h
      cases h
      rcases List.mem_cons.mp he with rfl | he'
      · exact le_of_lt (hx y (lastLE_mem hl).1)
      · exact ih hrest hl e he' hek
    | none =>
      rw [hl] at h
      by_cases hxk : x.1 ≤ addr
      · rw [if_pos hxk] at h
        cases h
        rcases List.mem_cons.mp he with rfl | he'
        · exact le_refl _
        · exact absurd hek (lastLE_none hl e he')
      · rw [if_neg hxk] at h
        cases h

/-- Conversely, the member with the greatest key `≤ addr` is what `lastLE`
finds (sorted map). -/
lemma lastLE_of_greatest {α : Type} {addr : Nat} :
    ∀ {m : List (Nat × α × Nat)}, List.Pairwise (fun a b => a.1 < b.1) m →
      ∀ {y}, y ∈ m → y.1 ≤ addr → (∀ e ∈ m, e.1 ≤ addr → e.1 ≤ y.1) →
        lastLE addr m = some y := by
  intro m
  induction m with
  | nil => intro _ y hy; simp at hy
  | cons x rest ih =>
    intro hs y hy hyk hgr
    rw [List.pairwise_cons] at hs
    obtain ⟨hx, hrest⟩ := hs
    rcases List.mem_cons.mp hy with rfl | hy'
    · cases hl : lastLE addr rest with
      | some z =>
        obtain ⟨hz, hzk⟩ := lastLE_mem hl
        have h1 := hgr z (List.mem_cons_of_mem _ hz) hzk
        have h2 := hx z hz
        omega
      | none =>
        simp only [lastLE, hl, if_pos hyk]
    · have := ih hrest hy' hyk (fun e he hek => hgr e (List.mem_cons_of_mem _ he) hek)
      simp only [lastLE, this]

/-- C5 (amended). Range-map lookup semantics as the code implements them:
on a sorted map, a lookup hit returns the value of the entry with the
greatest key `≤ addr`, and the hit is valid iff `addr ≤ key + size` (the
source's miss test is `key + size < addr`, so the interval is closed at its
end); a lookup misses iff no key is `≤ addr` (empty map, or `addr` below the
smallest key) or the greatest such entry ends before `addr`; consequently
every indexed entry is found at its own key. -/
theorem c5_amended {α : Type} (m : RangeMap α) (addr : Nat) (h : sortedKeys m) :
    (∀ v, m.tryGet addr = some v ↔
        ∃ k s, (k, v, s) ∈ m ∧ k ≤ addr ∧ addr ≤ k + s
          ∧ ∀ e ∈ m, e.1 ≤ addr → e.1 ≤ k)
    ∧ (m.tryGet addr = none ↔
        (∀ e ∈ m, ¬ e.1 ≤ addr)
        ∨ ∃ k v s, (k, v, s) ∈ m ∧ k ≤ addr ∧ k + s < addr
            ∧ ∀ e ∈ m, e.1 ≤ addr → e.1 ≤ k)
    ∧ (∀ k v s, (k, v, s) ∈ m → m.tryGet k = some v) := by
  unfold sortedKeys at h
  have key : ∀ a (v : α), m.tryGet a = some v ↔
      ∃ k s, (k, v, s) ∈ m ∧ k ≤ a ∧ a ≤ k + s ∧ ∀ e ∈ m, e.1 ≤ a → e.1 ≤ k := by
    intro a v
    rw [tryGet_eq_lastLE]
    constructor
    · intro hv
      cases hl : lastLE a m with
      | none => rw [hl] at hv; cases hv
      | some y =>
        rw [hl] at hv
        obtain ⟨k, v', s⟩ := y
        simp only [finishLE] at hv
        by_cases hc : k + s < a
        · rw [if_pos hc] at hv; cases hv
        · rw [if_neg hc] at hv
          cases hv
          obtain ⟨hm, hk⟩ := lastLE_mem hl
          exact ⟨k, s, hm, hk, by omega, lastLE_greatest h hl⟩
    · rintro ⟨k, s, hm, hk, hs, hgr⟩
      rw [lastLE_of_greatest h hm hk hgr]
      simp only [finishLE]
      rw [if_neg (by omega)]
  refine ⟨key addr, ?_, ?_⟩
  · rw [tryGet_eq_lastLE]
    constructor
    · intro hn
      cases hl : lastLE addr m with
      | none => exact Or.inl (lastLE_none hl)
      | some y =>
        rw [hl] at hn
        obtain ⟨k, v, s⟩ := y
        simp only [finishLE] at hn
        by_cases hc : k + s < addr
        · obtain ⟨hm, hk⟩ := lastLE_mem hl
          exact Or.inr ⟨k, v, s, hm, hk, hc, lastLE_greatest h hl⟩
        · rw [if_neg hc] at hn; cases hn
    · rintro (hnone | ⟨k, v, s, hm, hk, hc, hgr⟩)
      · cases hl : lastLE addr m with
        | none => rfl
        | some y =>
          obtain ⟨hm, hk⟩ := lastLE_mem hl
          exact absurd hk (hnone y hm)
      · rw [lastLE_of_greatest h hm hk hgr]
        simp only [finishLE]
        rw [if_pos hc]
  · intro k v s hm
    exact (key k v).mpr ⟨k, s, hm, le_refl _, by omega, fun e _ he => he⟩

/-- Witness for C5: on the concrete one-entry map of `pC5` the theorem
resolves the symbol at its own start address. -/
theorem c5_amended_witness :
    sortedKeys ([(256, 0, 16)] : RangeMap Nat)
    ∧ ((256, 0, 16) : Nat × Nat × Nat) ∈ ([(256, 0, 16)] : RangeMap Nat)
    ∧ RangeMap.tryGet ([(256, 0, 16)] : RangeMap Nat) 256 = some 0 :=
  ⟨by unfold sortedKeys; decide, by decide,
    (c5_amended [(256, 0, 16)] 256 (by unfold sortedKeys; decide)).2.2 256 0 16 (by decide)⟩

/-! ## C3: AddObject re-add semantics -/

lemma getObj_eq_getElem (l : List Obj) (j : Nat) (h : j < l.length) :
    getObj l j = l[j] := by
  simp [getObj, List.getD_eq_getElem?_getD, List.getElem?_eq_getElem h]

/-- Updating only the pretty name of one slot leaves every slot equal to its
old record up to the pretty-name field. -/
lemma getObj_set_pretty (objs : List Obj) (i j : Nat) (e : String) :
    ∃ pn, getObj (updObj objs i (fun o => { o with prettyName := e })) j
      = { getObj objs j with prettyName := pn } := by
  by_cases hij : j = i
  · subst hij
    by_cases hi : j < objs.length
    · exact ⟨e, getObj_updObj_self objs j _ hi⟩
    · rw [updObj_oob objs j _ (by omega)]
      exact ⟨(getObj objs j).prettyName, rfl⟩
  · rw [getObj_updObj_ne objs i j _ hij]
    exact ⟨(getObj objs j).prettyName, rfl⟩

/-- Two successive pretty-name-only updates leave every slot equal to its
old record up to the pretty-name field. -/
lemma getObj_set_pretty2 (objs : List Obj) (i1 i2 j : Nat) (e1 e2 : String) :
    ∃ pn, getObj (updObj (updObj objs i1 (fun o => { o with prettyName := e1 })) i2
        (fun o => { o with prettyName := e2 })) j = { getObj objs j with prettyName := pn } := by
  obtain ⟨pn2, h2⟩ := getObj_set_pretty (updObj objs i1 (fun o => { o with prettyName := e1 })) i2 j e2
  obtain ⟨pn1, h1⟩ := getObj_set_pretty objs i1 j e1
  refine ⟨pn2, ?_⟩
  rw [h2, h1]

/-- The pretty-name phase only rewrites pretty names and the stripped-name
table: the result is `p1` with a new arena of the same length whose slots
differ at most in the pretty-name field, plus a new table. -/
lemma prettyNames_shape (dem : String → String) (p1 : Program) (idx : Nat) (name : String) :
    ∃ ol tbl, prettyNames dem p1 idx name = { p1 with objects := ol, strippedPrettyNames := tbl }
      ∧ ol.length = p1.objects.length
      ∧ ∀ j, ∃ pn, getObj ol j = { getObj p1.objects j with prettyName := pn } := by
  rcases hsn : stripName (dem name) with ⟨b, str⟩
  cases b
  · refine ⟨updObj p1.objects idx (fun o => { o with prettyName := dem name }),
      p1.strippedPrettyNames, ?_, length_updObj _ _ _, fun j => getObj_set_pretty _ _ _ _⟩
    simp only [prettyNames, hsn]
  · cases hl : lookupA p1.strippedPrettyNames str with
    | none =>
      refine ⟨updObj p1.objects idx (fun o => { o with prettyName := str }),
        setA p1.strippedPrettyNames str (some idx), ?_, length_updObj _ _ _,
        fun j => getObj_set_pretty _ _ _ _⟩
      simp only [prettyNames, hsn, hl]
    | some e =>
      cases e with
      | none =>
        refine ⟨updObj p1.objects idx (fun o => { o with prettyName := dem name }),
          p1.strippedPrettyNames, ?_, length_updObj _ _ _, fun j => getObj_set_pretty _ _ _ _⟩
        simp only [prettyNames, hsn, hl]
      | some ci =>
        have heq : prettyNames dem p1 idx name = { p1 with
            objects :=
              updObj (updObj p1.objects idx (fun o => { o with prettyName := dem name })) ci
                (fun o => { o with prettyName := (dem (getObj (updObj p1.objects idx
                  (fun q => { q with prettyName := dem name })) ci).name) })
            strippedPrettyNames := setA p1.strippedPrettyNames str none } := by
          simp only [prettyNames, hsn, hl]
        exact ⟨_, _, heq, by rw [length_updObj, length_updObj],
          fun j => getObj_set_pretty2 _ _ _ _ _ _⟩

/-- Two arenas with the same length and pointwise-equal names have the same
name lookup result. -/
lemma findIdx?_name_eq (l1 l2 : List Obj) (name : String) (hlen : l2.length = l1.length)
    (hn : ∀ j, j < l1.length → (getObj l2 j).name = (getObj l1 j).name) :
    l2.findIdx? (fun o => o.name == name) = l1.findIdx? (fun o => o.name == name) := by
  cases h1 : l1.findIdx? (fun o => o.name == name) with
  | some i =>
    obtain ⟨hi, hp, hmin⟩ := List.findIdx?_eq_some_iff_getElem.mp h1
    apply List.findIdx?_eq_some_iff_getElem.mpr
    refine ⟨by omega, ?_, ?_⟩
    · rw [← getObj_eq_getElem l2 i (by omega), hn i hi, getObj_eq_getElem l1 i hi]
      exact hp
    · intro j hj
      have hjl : j < l1.length := by omega
      rw [← getObj_eq_getElem l2 j (by omega), hn j hjl, getObj_eq_getElem l1 j hjl]
      exact hmin j hj
  | none =>
    rw [List.findIdx?_eq_none_iff] at h1 ⊢
    intro x hx
    obtain ⟨j, hj, rfl⟩ := List.mem_iff_getElem.mp hx
    rw [← getObj_eq_getElem l2 j hj, hn j (by omega), getObj_eq_getElem l1 j (by omega)]
    exact h1 _ (List.getElem_mem _)


lemma getObj_append_last (l : List Obj) (x : Obj) : getObj (l ++ [x]) l.length = x := by
  simp [getObj, List.getD_eq_getElem?_getD]

lemma getObj_append_lt (l : List Obj) (x : Obj) (j : Nat) (h : j < l.length) :
    getObj (l ++ [x]) j = getObj l j := by
  simp [getObj, List.getD_eq_getElem?_getD, List.getElem?_append_left h]

lemma set_append_last (l : List Obj) (x y : Obj) : (l ++ [x]).set l.length y = l ++ [y] := by
  induction l with
  | nil => rfl
  | cons a as ih => simp [List.set, ih]

/-- `addObjectCore` when the name is already present at index `i`. -/
lemma addObjectCore_found {p : Program} {name : String} {i : Nat}
    (hf : p.objects.findIdx? (fun o => o.name == name) = some i)
    (vmaddr size : Nat) (data : Bool) :
    addObjectCore p name vmaddr size data
      = ({ p with
            objects := updObj p.objects i (fun o =>
              ({ o with id := p.nextId, vmaddr := vmaddr, data := data, name := name }).setSize size)
            nextId := p.nextId + 1
            totalSize := p.totalSize + size
            objectsByAddr := p.objectsByAddr.add vmaddr size i }, i) := by
  simp only [addObjectCore, hf, Option.getD_some]

/-- `addObjectCore` when the name is fresh: the record is appended. -/
lemma addObjectCore_fresh {p : Program} {name : String}
    (hf : p.objects.findIdx? (fun o => o.name == name) = none)
    (vmaddr size : Nat) (data : Bool) :
    addObjectCore p name vmaddr size data
      = ({ p with
            objects := p.objects ++
              [({ ({ name := name } : Obj) with
                  id := p.nextId, vmaddr := vmaddr, data := data, name := name }).setSize size]
            nextId := p.nextId + 1
            totalSize := p.totalSize + size
            objectsByAddr := p.objectsByAddr.add vmaddr size p.objects.length },
          p.objects.length) := by
  simp only [addObjectCore, hf, Option.getD_none]
  rw [updObj, getObj_append_last, set_append_last]

/-- After the arena half of `AddObject`, the returned index is in range and
looking the name up finds exactly it. -/
lemma addObjectCore_findIdx (p : Program) (name : String) (vmaddr size : Nat) (data : Bool) :
    (addObjectCore p name vmaddr size data).1.objects.findIdx? (fun o => o.name == name)
        = some (addObjectCore p name vmaddr size data).2
    ∧ (addObjectCore p name vmaddr size data).2
        < (addObjectCore p name vmaddr size data).1.objects.length := by
  cases hf : p.objects.findIdx? (fun o => o.name == name) with
  | some i =>
    obtain ⟨hi, hp, hmin⟩ := List.findIdx?_eq_some_iff_getElem.mp hf
    rw [addObjectCore_found hf vmaddr size data]
    simp only
    constructor
    · apply List.findIdx?_eq_some_iff_getElem.mpr
      refine ⟨by rw [length_updObj]; exact hi, ?_, ?_⟩
      · rw [← getObj_eq_getElem _ i (by rw [length_updObj]; exact hi),
          getObj_updObj_self _ _ _ hi]
        simp [Obj.setSize]
      · intro j hj
        rw [← getObj_eq_getElem _ j (by rw [length_updObj]; omega),
          getObj_updObj_ne _ _ _ _ (by omega), getObj_eq_getElem _ j (by omega)]
        exact hmin j hj
    · rw [length_updObj]; exact hi
  | none =>
    rw [addObjectCore_fresh hf vmaddr size data]
    simp only
    constructor
    · rw [List.findIdx?_append, hf]
      simp [Obj.setSize]
    · simp

/-- After `AddObject` returns index `i` for `name`, looking the name up again
finds the same index, which is in range. -/
lemma addObject_findIdx (dem : String → String) (p : Program) (name : String)
    (vmaddr size : Nat) (data : Bool) :
    ((p.addObject dem name vmaddr size data).1.objects.findIdx? (fun o => o.name == name)
        = some (p.addObject dem name vmaddr size data).2)
    ∧ (p.addObject dem name vmaddr size data).2
        < (p.addObject dem name vmaddr size data).1.objects.length := by
  obtain ⟨hfind, hlt⟩ := addObjectCore_findIdx p name vmaddr size data
  obtain ⟨ol, tbl, heq, hlen, hshape⟩ :=
    prettyNames_shape dem (addObjectCore p name vmaddr size data).1
      (addObjectCore p name vmaddr size data).2 name
  have hobj : (p.addObject dem name vmaddr size data).1.objects = ol := by
    simp only [Program.addObject, heq]
  have hidx : (p.addObject dem name vmaddr size data).2
      = (addObjectCore p name vmaddr size data).2 := rfl
  rw [hobj, hidx]
  constructor
  · rw [findIdx?_name_eq (addObjectCore p name vmaddr size data).1.objects ol name hlen ?_]
    · exact hfind
    · intro j hj
      obtain ⟨pn, hpn⟩ := hshape j
      rw [hpn]
  · omega

/-- C3 (amended). `add_object` is not idempotent on name: re-adding returns
the same record, but the second call overwrites the record's vmaddr, size
and is_data with its own arguments (last-writer wins), assigns the record a
fresh id (the next-id counter after the first call), and adds the second
size to the total-size counter again. -/
theorem c3_amended (dem : String → String) (p : Program) (name : String)
    (a1 s1 : Nat) (d1 : Bool) (a2 s2 : Nat) (d2 : Bool) :
    ((p.addObject dem name a1 s1 d1).1.addObject dem name a2 s2 d2).2
        = (p.addObject dem name a1 s1 d1).2
    ∧ (getObj ((p.addObject dem name a1 s1 d1).1.addObject dem name a2 s2 d2).1.objects
        ((p.addObject dem name a1 s1 d1).1.addObject dem name a2 s2 d2).2).vmaddr = a2
    ∧ (getObj ((p.addObject dem name a1 s1 d1).1.addObject dem name a2 s2 d2).1.objects
        ((p.addObject dem name a1 s1 d1).1.addObject dem name a2 s2 d2).2).size = s2
    ∧ (getObj ((p.addObject dem name a1 s1 d1).1.addObject dem name a2 s2 d2).1.objects
        ((p.addObject dem name a1 s1 d1).1.addObject dem name a2 s2 d2).2).data = d2
    ∧ (getObj ((p.addObject dem name a1 s1 d1).1.addObject dem name a2 s2 d2).1.objects
        ((p.addObject dem name a1 s1 d1).1.addObject dem name a2 s2 d2).2).id
        = (p.addObject dem name a1 s1 d1).1.nextId
    ∧ ((p.addObject dem name a1 s1 d1).1.addObject dem name a2 s2 d2).1.totalSize
        = (p.addObject dem name a1 s1 d1).1.totalSize + s2 := by
  obtain ⟨hfind, hlt⟩ := addObject_findIdx dem p name a1 s1 d1
  set q := (p.addObject dem name a1 s1 d1).1 with hq
  set i := (p.addObject dem name a1 s1 d1).2 with hi
  have hcore := addObjectCore_found hfind a2 s2 d2
  obtain ⟨ol, tbl, heq, hlen, hshape⟩ :=
    prettyNames_shape dem (addObjectCore q name a2 s2 d2).1 (addObjectCore q name a2 s2 d2).2 name
  have hobj2 : (q.addObject dem name a2 s2 d2).1.objects = ol := by
    simp only [Program.addObject, heq]
  have hidx2 : (q.addObject dem name a2 s2 d2).2 = i := by
    simp only [Program.addObject, hcore]
  have hslot : ∀ fprop : Obj → Prop,
      (∀ pn o, fprop o → fprop { o with prettyName := pn }) →
      fprop (getObj (addObjectCore q name a2 s2 d2).1.objects i) →
      fprop (getObj (q.addObject dem name a2 s2 d2).1.objects i) := by
    intro fprop hstable hbase
    rw [hobj2]
    obtain ⟨pn, hpn⟩ := hshape i
    rw [hpn]
    exact hstable pn _ hbase
  have hbase : getObj (addObjectCore q name a2 s2 d2).1.objects i
      = ({ getObj q.objects i with
            id := q.nextId, vmaddr := a2, data := d2, name := name }).setSize s2 := by
    rw [hcore]
    simp only
    exact getObj_updObj_self _ _ _ hlt
  have htot : (q.addObject dem name a2 s2 d2).1.totalSize = q.totalSize + s2 := by
    simp only [Program.addObject]
    rw [heq]
    simp [hcore]
  refine ⟨hidx2, ?_, ?_, ?_, ?_, htot⟩
  · rw [hidx2]
    exact hslot (fun o => o.vmaddr = a2) (fun pn o h => h)
      (by rw [hbase]; simp [Obj.setSize])
  · rw [hidx2]
    exact hslot (fun o => o.size = s2) (fun pn o h => h)
      (by rw [hbase]; simp [Obj.setSize])
  · rw [hidx2]
    exact hslot (fun o => o.data = d2) (fun pn o h => h)
      (by rw [hbase]; simp [Obj.setSize])
  · rw [hidx2]
    exact hslot (fun o => o.id = q.nextId) (fun pn o h => h)
      (by rw [hbase]; simp [Obj.setSize])

/-! ## C4: weight propagation invariants -/

/-- What one (complete) piece of the weight pass does to the
(arena, seen-set) state: the seen set only grows, the arena keeps its
length, sizes and refs of every slot, weights and max-weights of
already-seen slots never decrease, and every newly seen slot ends with
`weight ≥ size` and `max_weight ≥ size`. -/
def WStep (st res : List Obj × List Nat) : Prop :=
  st.2 ⊆ res.2
  ∧ res.1.length = st.1.length
  ∧ (∀ j, (getObj res.1 j).size = (getObj st.1 j).size
      ∧ (getObj res.1 j).refs = (getObj st.1 j).refs)
  ∧ (∀ j, j ∈ st.2 → (getObj st.1 j).weight ≤ (getObj res.1 j).weight
      ∧ (getObj st.1 j).maxWeight ≤ (getObj res.1 j).maxWeight)
  ∧ (∀ j, j ∈ res.2 → j ∉ st.2 →
      (getObj res.1 j).size ≤ (getObj res.1 j).weight
      ∧ (getObj res.1 j).size ≤ (getObj res.1 j).maxWeight)

lemma wstep_refl (st : List Obj × List Nat) : WStep st st :=
  ⟨fun _ h => h, rfl, fun _ => ⟨rfl, rfl⟩, fun _ _ => ⟨le_refl _, le_refl _⟩,
    fun _ hj hnj => absurd hj hnj⟩

lemma wstep_trans {a b c : List Obj × List Nat} (h1 : WStep a b) (h2 : WStep b c) : WStep a c := by
  obtain ⟨s1, l1, sz1, m1, n1⟩ := h1
  obtain ⟨s2, l2, sz2, m2, n2⟩ := h2
  refine ⟨fun x hx => s2 (s1 hx), l2.trans l1, ?_, ?_, ?_⟩
  · intro j
    exact ⟨(sz2 j).1.trans (sz1 j).1, (sz2 j).2.trans (sz1 j).2⟩
  · intro j hj
    exact ⟨(m1 j hj).1.trans (m2 j (s1 hj)).1, (m1 j hj).2.trans (m2 j (s1 hj)).2⟩
  · intro j hj hnj
    by_cases hb : j ∈ b.2
    · obtain ⟨hw, hmw⟩ := n1 j hb hnj
      obtain ⟨hw2, hmw2⟩ := m2 j hb
      rw [(sz2 j).1]
      exact ⟨hw.trans hw2, hmw.trans hmw2⟩
    · exact n2 j hj hb

/-- A monotone single-slot update (size and refs kept, weight and max-weight
not decreased) is a `WStep` with the seen set unchanged. -/
lemma wstep_updObj_mono (objs : List Obj) (seen : List Nat) (i : Nat) (f : Obj → Obj)
    (hsz : ∀ o, (f o).size = o.size) (hrf : ∀ o, (f o).refs = o.refs)
    (hw : ∀ o, o.weight ≤ (f o).weight) (hmw : ∀ o, o.maxWeight ≤ (f o).maxWeight) :
    WStep (objs, seen) (updObj objs i f, seen) := by
  by_cases hi : i < objs.length
  · refine ⟨fun _ h => h, length_updObj _ _ _, ?_, ?_, fun j hj hnj => absurd hj hnj⟩
    · intro j
      by_cases hij : j = i
      · subst hij
        rw [getObj_updObj_self _ _ _ hi]
        exact ⟨hsz _, hrf _⟩
      · rw [getObj_updObj_ne _ _ _ _ hij]
        exact ⟨rfl, rfl⟩
    · intro j _
      by_cases hij : j = i
      · subst hij
        rw [getObj_updObj_self _ _ _ hi]
        exact ⟨hw _, hmw _⟩
      · rw [getObj_updObj_ne _ _ _ _ hij]
        exact ⟨le_refl _, le_refl _⟩
  · rw [updObj_oob _ _ _ (by omega)]
    exact wstep_refl _

/-- Marking an unseen node and initializing `weight = size`,
`max_weight = weight` is a `WStep`. -/
lemma wstep_init (objs : List Obj) (seen : List Nat) (i : Nat) (hmem : i ∉ seen) :
    WStep (objs, seen)
      (updObj objs i (fun o =>
        let o := { o with weight := o.size }
        { o with maxWeight := o.weight }), i :: seen) := by
  unfold WStep
  dsimp only
  refine ⟨fun x hx => List.mem_cons_of_mem _ hx, length_updObj objs i _, ?_, ?_, ?_⟩
  · intro j
    by_cases hij : j = i
    · subst hij
      by_cases hi : j < objs.length
      · rw [getObj_updObj_self _ _ _ hi]
        exact ⟨rfl, rfl⟩
      · rw [updObj_oob _ _ _ (by omega)]
        exact ⟨rfl, rfl⟩
    · rw [getObj_updObj_ne _ _ _ _ hij]
      exact ⟨rfl, rfl⟩
  · intro j hj
    have hij : j ≠ i := fun h => hmem (h ▸ hj)
    rw [getObj_updObj_ne _ _ _ _ hij]
    exact ⟨le_refl _, le_refl _⟩
  · intro j hj hnj
    have hij : j = i := by
      rcases List.mem_cons.mp hj with h | h
      · exact h
      · exact absurd h hnj
    subst hij
    by_cases hi : j < objs.length
    · rw [getObj_updObj_self _ _ _ hi]
      exact ⟨le_refl _, le_refl _⟩
    · rw [updObj_oob _ _ _ (by omega)]
      have hd : getObj objs j = ({} : Obj) := by
        simp [getObj, List.getD_eq_getElem?_getD,
          List.getElem?_eq_none (by omega : objs.length ≤ j)]
      rw [hd]
      exact ⟨le_refl _, le_refl _⟩

/-- What a completed `CalculateWeights` run guarantees: it is a `WStep`, the
start node ends up seen, and every newly seen node has all its ref targets
seen (the DFS finished them). -/
lemma calcW_main (dom : List (Nat × Option Nat)) :
    ∀ fuel (st : List Obj × List Nat) (i : Nat) (res : List Obj × List Nat),
      calcW dom fuel st i = some res →
      WStep st res ∧ i ∈ res.2
      ∧ ∀ j, j ∈ res.2 → j ∉ st.2 → ∀ t, t ∈ (getObj res.1 j).refs → t ∈ res.2 := by
  intro fuel
  induction fuel with
  | zero => intro st i res h; simp [calcW] at h
  | succ fuel ih =>
    intro st i res h
    obtain ⟨objs, seen⟩ := st
    by_cases hmem : i ∈ seen
    · simp only [calcW, if_pos hmem] at h
      cases h
      exact ⟨wstep_refl _, hmem, fun j hj hnj => absurd hj hnj⟩
    · simp only [calcW, if_neg hmem] at h
      obtain ⟨mid, hfold0, hcredit⟩ := Option.map_eq_some'.mp h
      have hfold : ∀ (cs : List Nat) (st0 mid : List Obj × List Nat),
          cs.foldlM (fun st t => (calcW dom fuel st t).map
            (fun st1 => (updObj st1.1 i (fun o =>
              { o with maxWeight := max o.maxWeight (getObj st1.1 t).maxWeight }), st1.2))) st0
            = some mid →
          WStep st0 mid ∧ (∀ t, t ∈ cs → t ∈ mid.2)
          ∧ ∀ j, j ∈ mid.2 → j ∉ st0.2 → ∀ t, t ∈ (getObj mid.1 j).refs → t ∈ mid.2 := by
        intro cs
        induction cs with
        | nil =>
          intro st0 mid h0
          simp only [List.foldlM_nil, Option.pure_def, Option.some.injEq] at h0
          subst h0
          exact ⟨wstep_refl _, by simp, fun j hj hnj => absurd hj hnj⟩
        | cons c cs ihc =>
          intro st0 mid h0
          rw [List.foldlM_cons] at h0
          obtain ⟨mid1, hmid1, hrest⟩ := Option.bind_eq_some.mp h0
          obtain ⟨st1, hst1, hg⟩ := Option.map_eq_some'.mp hmid1
          obtain ⟨hW1, hc1, hcl1⟩ := ih st0 c st1 hst1
          have hWg : WStep st1 mid1 := by
            rw [← hg]
            exact wstep_updObj_mono st1.1 st1.2 i _
              (fun o => rfl) (fun o => rfl) (fun o => le_refl _) (fun o => le_max_left _ _)
          have hseen_g : mid1.2 = st1.2 := by rw [← hg]
          obtain ⟨hW2, hc2, hcl2⟩ := ihc mid1 mid hrest
          refine ⟨wstep_trans hW1 (wstep_trans hWg hW2), ?_, ?_⟩
          · intro t ht
            rcases List.mem_cons.mp ht with rfl | ht'
            · exact hW2.1 (by rw [hseen_g]; exact hc1)
            · exact hc2 t ht'
          · intro j hj hnj t htr
            by_cases hj1 : j ∈ mid1.2
            · have hjs1 : j ∈ st1.2 := by rw [hseen_g] at hj1; exact hj1
              have hrefs_eq : (getObj mid.1 j).refs = (getObj st1.1 j).refs := by
                rw [(hW2.2.2.1 j).2, (hWg.2.2.1 j).2]
              have htr' : t ∈ (getObj st1.1 j).refs := by rw [← hrefs_eq]; exact htr
              have hcl := hcl1 j hjs1 hnj t htr'
              exact hW2.1 (by rw [hseen_g]; exact hcl)
            · exact hcl2 j hj hj1 t htr
      obtain ⟨hWf, hcf, hclf⟩ := hfold _ _ mid hfold0
      have hW0 : WStep (objs, seen)
          (updObj objs i (fun o =>
            let o := { o with weight := o.size }
            { o with maxWeight := o.weight }), i :: seen) := wstep_init objs seen i hmem
      have himem : i ∈ mid.2 := hWf.1 (List.mem_cons_self _ _)
      have hclosure : ∀ j, j ∈ mid.2 → j ∉ seen → ∀ t, t ∈ (getObj mid.1 j).refs → t ∈ mid.2 := by
        intro j hj hnj t htr
        by_cases hji : j = i
        · subst hji
          have hrefs_eq : (getObj mid.1 j).refs
              = (getObj (updObj objs j (fun o =>
                  let o := { o with weight := o.size }
                  { o with maxWeight := o.weight })) j).refs := (hWf.2.2.1 j).2
          rw [hrefs_eq] at htr
          exact hcf t htr
        · have hnj1 : j ∉ (i :: seen) := by
            intro hc
            rcases List.mem_cons.mp hc with h' | h'
            · exact hji h'
            · exact hnj h'
          exact hclf j hj hnj1 t htr
      cases hlk : List.lookup i dom with
      | none =>
        rw [hlk] at hcredit
        have hres : mid = res := hcredit
        subst hres
        exact ⟨wstep_trans hW0 hWf, himem, hclosure⟩
      | some ov =>
        cases ov with
        | none =>
          rw [hlk] at hcredit
          have hres : mid = res := hcredit
          subst hres
          exact ⟨wstep_trans hW0 hWf, himem, hclosure⟩
        | some d =>
          rw [hlk] at hcredit
          have hres : (updObj mid.1 d (fun o =>
              { o with weight := o.weight + (getObj mid.1 i).weight }), mid.2) = res := hcredit
          subst hres
          have hWc : WStep mid (updObj mid.1 d (fun o =>
              { o with weight := o.weight + (getObj mid.1 i).weight }), mid.2) :=
            wstep_updObj_mono mid.1 mid.2 d _ (fun o => rfl) (fun o => rfl)
              (fun o => Nat.le_add_right _ _) (fun o => le_refl _)
          refine ⟨wstep_trans hW0 (wstep_trans hWf hWc), hWc.1 himem, ?_⟩
          intro j hj hnj t htr
          have hrefs : (getObj (updObj mid.1 d (fun o =>
              { o with weight := o.weight + (getObj mid.1 i).weight })) j).refs
              = (getObj mid.1 j).refs := (hWc.2.2.1 j).2
          rw [hrefs] at htr
          exact hWc.1 (hclosure j hj hnj t htr)

/-- Reachability in the reference graph: the reflexive-transitive closure of
the ref edges starting at the entry. -/
inductive Reaches (objs : List Obj) (e : Nat) : Nat → Prop where
  | refl : Reaches objs e e
  | step : ∀ {j t : Nat}, Reaches objs e j → t ∈ (getObj objs j).refs → Reaches objs e t

/-- C4 (amended). After a completed weight-propagation pass from the entry,
every symbol reachable from the entry in the reference graph has been
visited and satisfies `weight ≥ size` and `max_weight ≥ size`. (The
original bound `max_weight ≥ weight` fails; see the counterexample.) -/
theorem c4_amended (dom : List (Nat × Option Nat)) (fuel : Nat) (objs : List Obj) (e : Nat)
    (res : List Obj × List Nat) (h : calcW dom fuel (objs, []) e = some res) :
    ∀ j, Reaches objs e j →
      j ∈ res.2
      ∧ (getObj res.1 j).size ≤ (getObj res.1 j).weight
      ∧ (getObj res.1 j).size ≤ (getObj res.1 j).maxWeight := by
  obtain ⟨hW, he, hcl⟩ := calcW_main dom fuel (objs, []) e res h
  have hmemAll : ∀ j, Reaches objs e j → j ∈ res.2 := by
    intro j hr
    induction hr with
    | refl => exact he
    | step hr htr ihr =>
      rename_i j' t'
      have htr' : t' ∈ (getObj res.1 j').refs := by
        rw [(hW.2.2.1 j').2]
        exact htr
      exact hcl j' ihr (by simp) t' htr'
  intro j hr
  have hj := hmemAll j hr
  exact ⟨hj, (hW.2.2.2.2 j hj (by simp)).1, (hW.2.2.2.2 j hj (by simp)).2⟩

/-- The concrete final state of the weight pass on the one-symbol program
`pNoEntry`. -/
def c4WitnessRes : List Obj × List Nat :=
  ([{ id := 1, name := "A", vmaddr := 256, size := 10, data := false, prettyName := "A",
      refs := [], weight := 10, maxWeight := 10, file := none }], [0])

/-- Witness for C4 on a one-symbol program: the entry is reachable and ends
with weight and max-weight at least its size. -/
theorem c4_amended_witness :
    (0 : Nat) ∈ c4WitnessRes.2
    ∧ (getObj c4WitnessRes.1 0).size ≤ (getObj c4WitnessRes.1 0).weight
    ∧ (getObj c4WitnessRes.1 0).size ≤ (getObj c4WitnessRes.1 0).maxWeight :=
  c4_amended [] 2 pNoEntry.objects 0 c4WitnessRes (by decide) 0 Reaches.refl

/-! ## C9: termination of the three DFS procedures -/

/-- Reduction of an Option bind on a known value. -/
lemma bindSome {α β : Type} (a : α) (f : α → Option β) : (some a >>= f) = f a := rfl

/-- A completed `GC` run from any node, with any fuel exceeding the garbage
set's size, succeeds; the visit trace extends the old one by fresh visits
`nv`, and the remaining garbage together with `nv` is a permutation of the
old garbage (each visited node was erased exactly once). -/
lemma gc_total (g : List Obj) :
    ∀ fuel (garbage visited : List Nat) (i : Nat),
      garbage.length < fuel →
      ∃ r nv, gcRun g fuel i (garbage, visited) = some (r, visited ++ nv)
        ∧ (r ++ nv).Perm garbage := by
  intro fuel
  induction fuel with
  | zero => intro garbage _ _ h; omega
  | succ fuel ih =>
    intro garbage visited i h
    by_cases hg : i ∈ garbage
    · have hfold : ∀ (cs : List Nat) (gar vis : List Nat), gar.length < fuel →
          ∃ r nv, cs.foldlM (fun st c => gcRun g fuel c st) (gar, vis) = some (r, vis ++ nv)
            ∧ (r ++ nv).Perm gar := by
        intro cs
        induction cs with
        | nil =>
          intro gar vis _
          exact ⟨gar, [], by simp, by simp⟩
        | cons c cs ihc =>
          intro gar vis hlen
          obtain ⟨r1, nv1, he1, hp1⟩ := ih gar vis c hlen
          have hlen1 : r1.length < fuel := by
            have hl := hp1.length_eq
            simp only [List.length_append] at hl
            omega
          obtain ⟨r2, nv2, he2, hp2⟩ := ihc r1 (vis ++ nv1) hlen1
          refine ⟨r2, nv1 ++ nv2, ?_, ?_⟩
          · rw [List.foldlM_cons, he1, bindSome, he2, List.append_assoc]
          · have hcomm : (r2 ++ (nv1 ++ nv2)).Perm ((r2 ++ nv2) ++ nv1) := by
              calc (r2 ++ (nv1 ++ nv2)).Perm (r2 ++ (nv2 ++ nv1)) :=
                    List.Perm.append_left r2 (List.perm_append_comm)
                _ = ((r2 ++ nv2) ++ nv1) := by rw [List.append_assoc]
            exact hcomm.trans ((hp2.append_right nv1).trans hp1)
      have hlen0 : (garbage.erase i).length < fuel := by
        have := List.length_erase_of_mem hg
        have := List.length_pos_of_mem hg
        omega
      obtain ⟨r, nv, he, hp⟩ := hfold (getObj g i).refs (garbage.erase i) (visited ++ [i]) hlen0
      refine ⟨r, i :: nv, ?_, ?_⟩
      · simp only [gcRun, hg, if_pos]
        rw [he, List.append_assoc]
        rfl
      · have h1 : (r ++ (i :: nv)).Perm (i :: (r ++ nv)) := List.perm_middle
        have h2 : (i :: (r ++ nv)).Perm (i :: garbage.erase i) := List.Perm.cons i hp
        exact (h1.trans h2).trans (List.perm_cons_erase hg).symm
    · refine ⟨garbage, [], ?_, by simp⟩
      simp [gcRun, hg]

/-- The number of node indices not yet in the seen set. -/
def unseenCount (n : Nat) (seen : List Nat) : Nat :=
  ((List.range n).filter (fun j => decide (j ∉ seen))).length

lemma filter_length_mono {α : Type} (l : List α) (p q : α → Bool)
    (h : ∀ a, p a = true → q a = true) :
    (l.filter p).length ≤ (l.filter q).length := by
  induction l with
  | nil => simp
  | cons a as ihl =>
    simp only [List.filter_cons]
    by_cases hp : p a = true
    · rw [if_pos hp, if_pos (h a hp)]
      simpa using ihl
    · rw [if_neg hp]
      by_cases hq : q a = true
      · rw [if_pos hq]
        exact le_trans ihl (by simp)
      · rw [if_neg hq]
        exact ihl

lemma unseen_mono (n : Nat) (seen seen' : List Nat) (h : seen ⊆ seen') :
    unseenCount n seen' ≤ unseenCount n seen := by
  apply filter_length_mono
  intro a ha
  simp only [decide_eq_true_eq] at ha ⊢
  exact fun hmem => ha (h hmem)

lemma unseen_strict (n i : Nat) (seen : List Nat) (hin : i < n) (hns : i ∉ seen) :
    unseenCount n (i :: seen) < unseenCount n seen := by
  have key : ∀ l : List Nat, i ∈ l →
      (l.filter (fun j => decide (j ∉ i :: seen))).length
        < (l.filter (fun j => decide (j ∉ seen))).length := by
    intro l hl
    induction l with
    | nil => simp at hl
    | cons a as ihl =>
      simp only [List.filter_cons]
      by_cases hai : a = i
      · subst hai
        rw [if_neg (by simp), if_pos (by simpa using hns)]
        have hmono : (as.filter (fun j => decide (j ∉ a :: seen))).length
            ≤ (as.filter (fun j => decide (j ∉ seen))).length := by
          apply filter_length_mono
          intro b hb
          simp only [decide_eq_true_eq, List.mem_cons] at hb ⊢
          exact fun hmem => hb (Or.inr hmem)
        simp only [List.length_cons]
        omega
      · have hmem : i ∈ as := by
          rcases List.mem_cons.mp hl with h | h
          · exact absurd h.symm hai
          · exact h
        have heq : (decide (a ∉ i :: seen)) = (decide (a ∉ seen)) := by
          by_cases hq : a ∈ seen
          · simp [hq]
          · simp [hq, List.mem_cons, hai]
        rw [heq]
        by_cases hq : (decide (a ∉ seen)) = true
        · rw [if_pos hq, if_pos hq]
          simpa using ihl hmem
        · rw [if_neg hq, if_neg hq]
          exact ihl hmem
  exact key (List.range n) (List.mem_range.mpr hin)

/-- A `CalculateWeights` DFS with fuel exceeding the number of unseen node
indices always completes, and its seen set stays duplicate-free: every node
is visited at most once. -/
lemma calcW_total (dom : List (Nat × Option Nat)) :
    ∀ fuel (objs : List Obj) (seen : List Nat) (i : Nat),
      (∀ j t, t ∈ (getObj objs j).refs → t < objs.length) →
      i < objs.length →
      seen.Nodup →
      unseenCount objs.length seen < fuel →
      ∃ res, calcW dom fuel (objs, seen) i = some res ∧ res.2.Nodup := by
  intro fuel
  induction fuel with
  | zero => intro objs seen i _ _ _ h; omega
  | succ fuel ih =>
    intro objs seen i hwf hi hnd hcnt
    by_cases hmem : i ∈ seen
    · exact ⟨(objs, seen), by simp [calcW, hmem], hnd⟩
    · have hW0 := wstep_init objs seen i hmem
      have hfold : ∀ (cs : List Nat) (st0 : List Obj × List Nat),
          (∀ j t, t ∈ (getObj st0.1 j).refs → t < st0.1.length) →
          (∀ t, t ∈ cs → t < st0.1.length) →
          st0.2.Nodup →
          unseenCount st0.1.length st0.2 < fuel →
          ∃ mid, cs.foldlM (fun st t => (calcW dom fuel st t).map
              (fun st1 => (updObj st1.1 i (fun o =>
                { o with maxWeight := max o.maxWeight (getObj st1.1 t).maxWeight }), st1.2))) st0
            = some mid ∧ mid.2.Nodup ∧ WStep st0 mid := by
        intro cs
        induction cs with
        | nil =>
          intro st0 _ _ hnd0 _
          exact ⟨st0, by simp, hnd0, wstep_refl _⟩
        | cons c cs ihc =>
          intro st0 hwf0 hcs hnd0 hcnt0
          obtain ⟨objs0, seen0⟩ := st0
          obtain ⟨st1, hst1, hnd1⟩ := ih objs0 seen0 c hwf0 (hcs c (List.mem_cons_self _ _)) hnd0 hcnt0
          obtain ⟨hW1, _, _⟩ := calcW_main dom fuel (objs0, seen0) c st1 hst1
          have hWg : WStep st1 (updObj st1.1 i (fun o =>
              { o with maxWeight := max o.maxWeight (getObj st1.1 c).maxWeight }), st1.2) :=
            wstep_updObj_mono st1.1 st1.2 i _ (fun o => rfl) (fun o => rfl)
              (fun o => le_refl _) (fun o => le_max_left _ _)
          set st2 : List Obj × List Nat := (updObj st1.1 i (fun o =>
              { o with maxWeight := max o.maxWeight (getObj st1.1 c).maxWeight }), st1.2) with hst2
          have hlen2 : st2.1.length = objs0.length := by
            rw [hWg.2.1, hW1.2.1]
          have hwf2 : ∀ j t, t ∈ (getObj st2.1 j).refs → t < st2.1.length := by
            intro j t ht
            rw [(hWg.2.2.1 j).2, (hW1.2.2.1 j).2] at ht
            rw [hlen2]
            exact hwf0 j t ht
          have hcs2 : ∀ t, t ∈ cs → t < st2.1.length := by
            intro t ht
            rw [hlen2]
            exact hcs t (List.mem_cons_of_mem _ ht)
          have hcnt2 : unseenCount st2.1.length st2.2 < fuel := by
            rw [hlen2]
            have hsub : seen0 ⊆ st2.2 := hW1.1
            exact lt_of_le_of_lt (unseen_mono _ _ _ hsub) hcnt0
          obtain ⟨mid, hmid, hndm, hWm⟩ := ihc st2 hwf2 hcs2 hnd1 hcnt2
          refine ⟨mid, ?_, hndm, wstep_trans hW1 (wstep_trans hWg hWm)⟩
          rw [List.foldlM_cons, hst1, Option.map_some', bindSome]
          exact hmid
      have hlen1 : (updObj objs i (fun o =>
          let o := { o with weight := o.size }
          { o with maxWeight := o.weight })).length = objs.length := length_updObj _ _ _
      have hwf1 : ∀ j t, t ∈ (getObj (updObj objs i (fun o =>
          let o := { o with weight := o.size }
          { o with maxWeight := o.weight })) j).refs →
          t < (updObj objs i (fun o =>
            let o := { o with weight := o.size }
            { o with maxWeight := o.weight })).length := by
        intro j t ht
        rw [(hW0.2.2.1 j).2] at ht
        rw [hlen1]
        exact hwf j t ht
      have hcs1 : ∀ t, t ∈ (getObj (updObj objs i (fun o =>
          let o := { o with weight := o.size }
          { o with maxWeight := o.weight })) i).refs →
          t < (updObj objs i (fun o =>
            let o := { o with weight := o.size }
            { o with maxWeight := o.weight })).length := fun t ht => hwf1 i t ht
      have hcnt1 : unseenCount (updObj objs i (fun o =>
          let o := { o with weight := o.size }
          { o with maxWeight := o.weight })).length (i :: seen) < fuel := by
        rw [hlen1]
        have := unseen_strict objs.length i seen hi hmem
        omega
      obtain ⟨mid, hmid, hndm, _⟩ := hfold
        ((getObj (updObj objs i (fun o =>
          let o := { o with weight := o.size }
          { o with maxWeight := o.weight })) i).refs)
        ((updObj objs i (fun o =>
          let o := { o with weight := o.size }
          { o with maxWeight := o.weight })), i :: seen)
        hwf1 hcs1 (List.nodup_cons.mpr ⟨hmem, hnd⟩) hcnt1
      cases hlk : List.lookup i dom with
      | none =>
        refine ⟨mid, ?_, hndm⟩
        simp only [calcW, if_neg hmem]
        rw [hmid]
        simp only [Option.map_some', hlk]
      | some ov =>
        cases ov with
        | none =>
          refine ⟨mid, ?_, hndm⟩
          simp only [calcW, if_neg hmem]
          rw [hmid]
          simp only [Option.map_some', hlk]
        | some d =>
          refine ⟨(updObj mid.1 d (fun o =>
            { o with weight := o.weight + (getObj mid.1 i).weight }), mid.2), ?_, hndm⟩
          simp only [calcW, if_neg hmem]
          rw [hmid]
          simp only [Option.map_some', hlk]

/-- The number of `node_info_` slots still unvisited (`Semi == 0`). -/
def zcount (s : DomState) : Nat :=
  (s.nodeInfo.filter (fun r => decide (r.semi = 0))).length

lemma filter_length_set_preserve {α : Type} (l : List α) (v : Nat) (x : α) (p : α → Bool)
    (h : ∀ hv : v < l.length, p x = p (l.get ⟨v, hv⟩)) :
    ((l.set v x).filter p).length = (l.filter p).length := by
  induction l generalizing v with
  | nil => simp
  | cons a as ihl =>
    cases v with
    | zero =>
      have hp : p x = p a := h (by simp)
      simp only [List.set_cons_zero, List.filter_cons, hp]
      by_cases hpa : p a = true
      · rw [if_pos hpa, if_pos hpa]
        simp
      · rw [if_neg hpa, if_neg hpa]
    | succ v =>
      simp only [List.set_cons_succ, List.filter_cons]
      have hrec := ihl v (fun hv => h (by simpa using Nat.succ_lt_succ hv))
      by_cases hpa : p a = true
      · rw [if_pos hpa, if_pos hpa]
        simpa using hrec
      · rw [if_neg hpa, if_neg hpa]
        exact hrec

lemma filter_length_set_dec {α : Type} (l : List α) (v : Nat) (x : α) (p : α → Bool)
    (hv : v < l.length) (hold : p (l.get ⟨v, hv⟩) = true) (hnew : p x = false) :
    ((l.set v x).filter p).length + 1 = (l.filter p).length := by
  induction l generalizing v with
  | nil => simp at hv
  | cons a as ihl =>
    cases v with
    | zero =>
      have hpa : p a = true := hold
      simp only [List.set_cons_zero, List.filter_cons, hpa, hnew]
      simp
    | succ v =>
      have hv' : v < as.length := by simpa using hv
      have hold' : p (as.get ⟨v, hv'⟩) = true := by simpa using hold
      have hrec := ihl v hv' hold'
      simp only [List.set_cons_succ, List.filter_cons]
      by_cases hpa : p a = true
      · rw [if_pos hpa, if_pos hpa]
        simp only [List.length_cons]
        omega
      · rw [if_neg hpa, if_neg hpa]
        exact hrec

lemma info_mod_self (s : DomState) (v : Nat) (f : NodeRec → NodeRec)
    (hv : v < s.nodeInfo.length) : (s.mod v f).info v = f (s.info v) := by
  simp [DomState.mod, DomState.info, List.getD_eq_getElem?_getD,
    List.getElem?_set_self (by simpa using hv)]

lemma info_mod_ne (s : DomState) (v : Nat) (f : NodeRec → NodeRec) (w : Nat) (h : w ≠ v) :
    (s.mod v f).info w = s.info w := by
  simp [DomState.mod, DomState.info, List.getD_eq_getElem?_getD,
    List.getElem?_set_ne (Ne.symm h)]

lemma mod_oob (s : DomState) (v : Nat) (f : NodeRec → NodeRec)
    (h : s.nodeInfo.length ≤ v) : s.mod v f = s := by
  simp [DomState.mod, List.set_eq_of_length_le h]

lemma mod_length (s : DomState) (v : Nat) (f : NodeRec → NodeRec) :
    (s.mod v f).nodeInfo.length = s.nodeInfo.length := by
  simp [DomState.mod]

lemma mod_n (s : DomState) (v : Nat) (f : NodeRec → NodeRec) : (s.mod v f).n = s.n := by
  simp [DomState.mod]

lemma info_eq_get (s : DomState) (v : Nat) (hv : v < s.nodeInfo.length) :
    s.info v = s.nodeInfo.get ⟨v, hv⟩ := by
  simp [DomState.info, List.getD_eq_getElem?_getD, List.getElem?_eq_getElem hv]

/-- A semi-preserving slot update keeps the unvisited count and all semi
values. -/
lemma zcount_mod_preserve (s : DomState) (v : Nat) (f : NodeRec → NodeRec)
    (h : ∀ r, (f r).semi = r.semi) :
    zcount (s.mod v f) = zcount s
    ∧ ∀ w, ((s.mod v f).info w).semi = (s.info w).semi := by
  constructor
  · by_cases hv : v < s.nodeInfo.length
    · apply filter_length_set_preserve
      intro hv'
      rw [← info_eq_get s v hv']
      simp [h]
    · rw [mod_oob s v f (by omega)]
  · intro w
    by_cases hw : w = v
    · subst hw
      by_cases hv : w < s.nodeInfo.length
      · rw [info_mod_self s w f hv, h]
      · rw [mod_oob s w f (by omega)]
    · rw [info_mod_ne s v f w hw]

/-- Marking a previously unvisited slot with a nonzero semi value decreases
the unvisited count by exactly one. -/
lemma zcount_mod_mark (s : DomState) (v k : Nat)
    (hv : v < s.nodeInfo.length) (hsemi : (s.info v).semi = 0) (hk : k ≠ 0) :
    zcount (s.mod v (fun r => { r with semi := k })) + 1 = zcount s := by
  apply filter_length_set_dec
  · rw [← info_eq_get s v hv]
    simpa using hsemi
  · simpa using hk

/-- The visit header of the dominator DFS: set `node`, `Semi(v) = ++n_`,
`Vertex(n_) = v`, `Label(v) = v`, `Ancestor(v) = 0`. -/
def domInitHeader (g : List Obj) (s : DomState) (pi : Nat) : DomState :=
  let v := objId g pi
  let s1 := s.mod v (fun r => { r with node := some pi })
  let s2 : DomState := { s1 with n := s1.n + 1 }
  let s3 := s2.mod v (fun r => { r with semi := s2.n })
  let s4 := s3.setVertex s3.n v
  s4.mod v (fun r => { r with label := v, ancestor := 0 })

/-- The per-edge body of the dominator DFS loop. -/
def domInitBody (g : List Obj) (fuel v : Nat) (s : DomState) (t : Nat) : Option DomState :=
  let w := objId g t
  (if (s.info w).semi = 0 then
    domInit g fuel (s.mod w (fun r => { r with parent := v })) t
  else
    some s).map
    (fun s1 => s1.mod w (fun r => { r with pred := insertSorted v r.pred }))

lemma domInit_succ (g : List Obj) (fuel : Nat) (s : DomState) (pi : Nat) :
    domInit g (fuel + 1) s pi
      = (getObj g pi).refs.foldlM (domInitBody g fuel (objId g pi)) (domInitHeader g s pi) := rfl

lemma domInitHeader_facts (g : List Obj) (s : DomState) (pi : Nat)
    (hvlen : objId g pi < s.nodeInfo.length)
    (hsemi : (s.info (objId g pi)).semi = 0) :
    (domInitHeader g s pi).nodeInfo.length = s.nodeInfo.length
    ∧ zcount (domInitHeader g s pi) + 1 = zcount s
    ∧ (domInitHeader g s pi).n = s.n + 1
    ∧ ∀ w, (s.info w).semi ≠ 0 → ((domInitHeader g s pi).info w).semi ≠ 0 := by
  have h1 := zcount_mod_preserve s (objId g pi) (fun r => { r with node := some pi })
    (fun r => rfl)
  set v := objId g pi
  set s1 := s.mod v (fun r => { r with node := some pi }) with hs1
  set s2 : DomState := { s1 with n := s1.n + 1 } with hs2
  set s3 := s2.mod v (fun r => { r with semi := s2.n }) with hs3
  set s4 := s3.setVertex s3.n v with hs4
  have hlen1 : s1.nodeInfo.length = s.nodeInfo.length := mod_length _ _ _
  have hlen2 : s2.nodeInfo.length = s1.nodeInfo.length := rfl
  have hinfo2 : ∀ w, s2.info w = s1.info w := fun w => rfl
  have hz2 : zcount s2 = zcount s1 := rfl
  have hsemi2 : (s2.info v).semi = 0 := by
    rw [hinfo2, h1.2]
    exact hsemi
  have hn2 : s2.n = s.n + 1 := by
    rw [hs2]
    simp [hs1, mod_n]
  have hmark := zcount_mod_mark s2 v s2.n (by rw [hlen2, hlen1]; exact hvlen) hsemi2
    (by omega)
  rw [← hs3] at hmark
  have hlen3 : s3.nodeInfo.length = s2.nodeInfo.length := mod_length _ _ _
  have hinfo4 : ∀ w, s4.info w = s3.info w := fun w => rfl
  have hlen4 : s4.nodeInfo.length = s3.nodeInfo.length := rfl
  have hz4 : zcount s4 = zcount s3 := rfl
  have h5 := zcount_mod_preserve s4 v (fun r => { r with label := v, ancestor := 0 })
    (fun r => rfl)
  have hdr : domInitHeader g s pi = s4.mod v (fun r => { r with label := v, ancestor := 0 }) := rfl
  refine ⟨?_, ?_, ?_, ?_⟩
  · rw [hdr, mod_length, hlen4, hlen3, hlen2, hlen1]
  · rw [hdr, h5.1, hz4, hmark, hz2, h1.1]
  · rw [hdr, mod_n]
    show s3.n = s.n + 1
    rw [hs3, mod_n, hn2]
  · intro w hw
    rw [hdr, h5.2, hinfo4]
    by_cases hwv : w = v
    · rw [hwv] at hw ⊢
      by_cases hin : v < s2.nodeInfo.length
      · rw [hs3, info_mod_self s2 v _ hin]
        show s2.n ≠ 0
        omega
      · rw [hs3, mod_oob s2 v _ (by omega), hinfo2, h1.2]
        exact hw
    · rw [hs3, info_mod_ne s2 v _ w hwv, hinfo2, h1.2]
      exact hw

/-- The dominator DFS (`Initialize`) with fuel exceeding the number of
unvisited slots always completes; each completed call visits its argument
(and every node it recurses into) exactly once — the DFS counter `n_` grows
by exactly the number of slots that flip from unvisited to visited. -/
lemma domInit_total (g : List Obj)
    (hrefs : ∀ o ∈ g, ∀ t ∈ o.refs, t < g.length) :
    ∀ fuel (s : DomState) (pi : Nat),
      (∀ o ∈ g, o.id < s.nodeInfo.length) →
      pi < g.length →
      (s.info (objId g pi)).semi = 0 →
      zcount s < fuel →
      ∃ s', domInit g fuel s pi = some s'
        ∧ s'.nodeInfo.length = s.nodeInfo.length
        ∧ zcount s' < zcount s
        ∧ s'.n + zcount s' = s.n + zcount s
        ∧ (∀ w, (s.info w).semi ≠ 0 → (s'.info w).semi ≠ 0) := by
  intro fuel
  induction fuel with
  | zero => intro s pi _ _ _ h; omega
  | succ fuel ih =>
    intro s pi hids hpi hsemi hcnt
    have hvlen : objId g pi < s.nodeInfo.length := by
      apply hids
      rw [getObj_eq_getElem g pi hpi]
      exact List.getElem_mem _
    obtain ⟨hHlen, hHz, hHn, hHnz⟩ := domInitHeader_facts g s pi hvlen hsemi
    have hfold : ∀ (cs : List Nat) (s0 : DomState),
        (∀ o ∈ g, o.id < s0.nodeInfo.length) →
        (∀ t, t ∈ cs → t < g.length) →
        zcount s0 < fuel →
        ∃ s', cs.foldlM (domInitBody g fuel (objId g pi)) s0 = some s'
          ∧ s'.nodeInfo.length = s0.nodeInfo.length
          ∧ zcount s' ≤ zcount s0
          ∧ s'.n + zcount s' = s0.n + zcount s0
          ∧ (∀ w, (s0.info w).semi ≠ 0 → (s'.info w).semi ≠ 0) := by
      intro cs
      induction cs with
      | nil =>
        intro s0 _ _ _
        exact ⟨s0, by simp, rfl, le_refl _, rfl, fun _ h => h⟩
      | cons c cs ihc =>
        intro s0 hids0 hcs hcnt0
        by_cases hsw : (s0.info (objId g c)).semi = 0
        · have hmod := zcount_mod_preserve s0 (objId g c)
            (fun r => { r with parent := objId g pi }) (fun r => rfl)
          obtain ⟨s1, he1, hlen1, hz1, hsum1, hnz1⟩ :=
            ih (s0.mod (objId g c) (fun r => { r with parent := objId g pi })) c
              (by rw [mod_length]; exact hids0)
              (hcs c (List.mem_cons_self _ _))
              (by rw [hmod.2]; exact hsw)
              (by rw [hmod.1]; exact hcnt0)
          have hpred := zcount_mod_preserve s1 (objId g c)
            (fun r => { r with pred := insertSorted (objId g pi) r.pred }) (fun r => rfl)
          obtain ⟨s2, he2, hlen2, hz2, hsum2, hnz2⟩ :=
            ihc (s1.mod (objId g c) (fun r => { r with pred := insertSorted (objId g pi) r.pred }))
              (by rw [mod_length, hlen1, mod_length]; exact hids0)
              (fun t ht => hcs t (List.mem_cons_of_mem _ ht))
              (by
                rw [hpred.1]
                have : zcount (s0.mod (objId g c)
                    (fun r => { r with parent := objId g pi })) = zcount s0 := hmod.1
                omega)
          refine ⟨s2, ?_, ?_, ?_, ?_, ?_⟩
          · rw [List.foldlM_cons]
            have hbody : domInitBody g fuel (objId g pi) s0 c
                = some (s1.mod (objId g c)
                    (fun r => { r with pred := insertSorted (objId g pi) r.pred })) := by
              simp only [domInitBody, if_pos hsw, he1, Option.map_some']
            rw [hbody, bindSome]
            exact he2
          · rw [hlen2, mod_length, hlen1, mod_length]
          · have h0 := hmod.1
            rw [hpred.1] at hz2
            omega
          · rw [hpred.1] at hz2
            have hn1 : (s1.mod (objId g c)
                (fun r => { r with pred := insertSorted (objId g pi) r.pred })).n = s1.n :=
              mod_n _ _ _
            rw [hn1, hpred.1] at hsum2
            have hn0 : (s0.mod (objId g c)
                (fun r => { r with parent := objId g pi })).n = s0.n := mod_n _ _ _
            rw [hn0, hmod.1] at hsum1
            omega
          · intro w hw
            apply hnz2
            rw [hpred.2]
            apply hnz1
            rw [hmod.2]
            exact hw
        · have hpred := zcount_mod_preserve s0 (objId g c)
            (fun r => { r with pred := insertSorted (objId g pi) r.pred }) (fun r => rfl)
          obtain ⟨s2, he2, hlen2, hz2, hsum2, hnz2⟩ :=
            ihc (s0.mod (objId g c) (fun r => { r with pred := insertSorted (objId g pi) r.pred }))
              (by rw [mod_length]; exact hids0)
              (fun t ht => hcs t (List.mem_cons_of_mem _ ht))
              (by rw [hpred.1]; exact hcnt0)
          refine ⟨s2, ?_, ?_, ?_, ?_, ?_⟩
          · rw [List.foldlM_cons]
            have hbody : domInitBody g fuel (objId g pi) s0 c
                = some (s0.mod (objId g c)
                    (fun r => { r with pred := insertSorted (objId g pi) r.pred })) := by
              simp only [domInitBody, if_neg hsw, Option.map_some']
            rw [hbody, bindSome]
            exact he2
          · rw [hlen2, mod_length]
          · rw [hpred.1] at hz2
            exact hz2
          · rw [hpred.1] at hz2
            rw [mod_n, hpred.1] at hsum2
            omega
          · intro w hw
            apply hnz2
            rw [hpred.2]
            exact hw
    have hcstargets : ∀ t, t ∈ (getObj g pi).refs → t < g.length := by
      intro t ht
      apply hrefs (getObj g pi) ?_ t ht
      rw [getObj_eq_getElem g pi hpi]
      exact List.getElem_mem _
    obtain ⟨s', he, hlen, hz, hsum, hnz⟩ := hfold (getObj g pi).refs (domInitHeader g s pi)
      (by rw [hHlen]; exact hids) hcstargets (by omega)
    refine ⟨s', ?_, ?_, ?_, ?_, ?_⟩
    · rw [domInit_succ]
      exact he
    · rw [hlen, hHlen]
    · omega
    · rw [hsum, hHn]
      omega
    · intro w hw
      exact hnz w (hHnz w hw)

lemma getObj_oob (objs : List Obj) (j : Nat) (h : objs.length ≤ j) :
    getObj objs j = ({} : Obj) := by
  simp [getObj, List.getD_eq_getElem?_getD, List.getElem?_eq_none h]

/-- C9. The three DFS procedures terminate on every finite reference graph,
cycles and self-edges included, visiting every node at most once: the
reachability DFS (`GC`) completes whenever its fuel exceeds the garbage
set's size, erasing each visited node exactly once (the remaining garbage
plus the duplicate-free visit trace is a permutation of the input); the
weight DFS (`CalculateWeights`) completes whenever its fuel exceeds the
number of unseen nodes, with a duplicate-free seen set; the dominator DFS
(`Initialize`) completes whenever its fuel exceeds the number of unvisited
slots, and increments the DFS counter exactly once per slot that flips from
unvisited to visited. -/
theorem c9_dfs_termination :
    (∀ (g : List Obj) (fuel : Nat) (garbage visited : List Nat) (i : Nat),
        garbage.length < fuel → garbage.Nodup →
        ∃ r nv, gcRun g fuel i (garbage, visited) = some (r, visited ++ nv)
          ∧ (r ++ nv).Perm garbage ∧ nv.Nodup)
    ∧ (∀ (dom : List (Nat × Option Nat)) (fuel : Nat) (objs : List Obj) (seen : List Nat) (i : Nat),
        (∀ j, j < objs.length → ∀ t, t ∈ (getObj objs j).refs → t < objs.length) →
        i < objs.length → seen.Nodup →
        unseenCount objs.length seen < fuel →
        ∃ res, calcW dom fuel (objs, seen) i = some res ∧ res.2.Nodup)
    ∧ (∀ (g : List Obj) (fuel : Nat) (s : DomState) (pi : Nat),
        (∀ o ∈ g, ∀ t ∈ o.refs, t < g.length) →
        (∀ o ∈ g, o.id < s.nodeInfo.length) →
        pi < g.length →
        (s.info (objId g pi)).semi = 0 →
        zcount s < fuel →
        ∃ s', domInit g fuel s pi = some s'
          ∧ s'.n + zcount s' = s.n + zcount s ∧ zcount s' < zcount s) := by
  refine ⟨?_, ?_, ?_⟩
  · intro g fuel garbage visited i hf hnd
    obtain ⟨r, nv, he, hp⟩ := gc_total g fuel garbage visited i hf
    refine ⟨r, nv, he, hp, ?_⟩
    have hnd2 : (r ++ nv).Nodup := (hp.nodup_iff).mpr hnd
    exact hnd2.of_append_right
  · intro dom fuel objs seen i h1 h2 h3 h4
    apply calcW_total dom fuel objs seen i ?_ h2 h3 h4
    intro j t ht
    by_cases hj : j < objs.length
    · exact h1 j hj t ht
    · rw [getObj_oob objs j (by omega)] at ht
      simp at ht
  · intro g fuel s pi h1 h2 h3 h4 h5
    obtain ⟨s', he, _, hz, hsum, _⟩ := domInit_total g h1 fuel s pi h2 h3 h4 h5
    exact ⟨s', he, hsum, hz⟩

/-- The zeroed dominator state sized for the cycle program. -/
def c9DomStart : DomState :=
  { n := 0, nodeInfo := List.replicate 4 {}, ordering := List.replicate 4 0 }

/-- Witness for C9 on the spec's cycle scenario A → B → C → B: all three DFS
procedures complete with adequate fuel. -/
theorem c9_dfs_termination_witness :
    (∃ r nv, gcRun cycleP.objects 4 0 ([0, 1, 2], []) = some (r, [] ++ nv)
      ∧ (r ++ nv).Perm [0, 1, 2] ∧ nv.Nodup)
    ∧ (∃ res, calcW [] 4 (cycleP.objects, []) 0 = some res ∧ res.2.Nodup)
    ∧ (∃ s', domInit cycleP.objects 5 c9DomStart 0 = some s'
        ∧ s'.n + zcount s' = c9DomStart.n + zcount c9DomStart
        ∧ zcount s' < zcount c9DomStart) :=
  ⟨c9_dfs_termination.1 cycleP.objects 4 [0, 1, 2] [] 0 (by decide) (by decide),
   c9_dfs_termination.2.1 [] 4 cycleP.objects [] 0 (by decide) (by decide) (by decide) (by decide),
   c9_dfs_termination.2.2 cycleP.objects 5 c9DomStart 0 (by decide) (by decide) (by decide)
     (by decide) (by decide)⟩

/-! ## C8: pretty-name collision invariant -/

/-- One `add_object` call's arguments. -/
structure AddCall where
  name : String
  vmaddr : Nat := 0
  size : Nat := 0
  data : Bool := false
  deriving Repr, DecidableEq

/-- Replay a sequence of `add_object` calls on a fresh program. -/
def buildProgram (dem : String → String) (adds : List AddCall) : Program :=
  adds.foldl (fun p a => (p.addObject dem a.name a.vmaddr a.size a.data).1) emptyProgram

/-- The stripped form of a symbol's demangled name: present exactly when
the demangled name contains a parenthesis. -/
def strippedOf (dem : String → String) (o : Obj) : Option String :=
  match stripName (dem o.name) with
  | (true, str) => some str
  | (false, _) => none

/-- The invariant tying the stripped-name table to the arena:
a non-null table entry points at the unique live symbol with that stripped
form, which wears the stripped form as its pretty name; a null entry means
at least two symbols share the form and all of them wear their full
demangled names; and every symbol with a stripped form has a table entry. -/
def TableInv (dem : String → String) (objs : List Obj) (tbl : List (String × Option Nat)) : Prop :=
  (∀ str i, lookupA tbl str = some (some i) →
      i < objs.length
      ∧ strippedOf dem (getObj objs i) = some str
      ∧ (getObj objs i).prettyName = str
      ∧ ∀ j, j < objs.length → j ≠ i → strippedOf dem (getObj objs j) ≠ some str)
  ∧ (∀ str, lookupA tbl str = some none →
      (∃ i j, i < objs.length ∧ j < objs.length ∧ i ≠ j
        ∧ strippedOf dem (getObj objs i) = some str
        ∧ strippedOf dem (getObj objs j) = some str)
      ∧ ∀ j, j < objs.length → strippedOf dem (getObj objs j) = some str →
          (getObj objs j).prettyName = dem (getObj objs j).name)
  ∧ (∀ j, j < objs.length → ∀ str, strippedOf dem (getObj objs j) = some str →
      ∃ e, lookupA tbl str = some e)

lemma lookupA_setA (t : List (String × Option Nat)) (s : String) (v : Option Nat) (s' : String) :
    lookupA (setA t s v) s' = if s' = s then some v else lookupA t s' := by
  induction t with
  | nil =>
    simp only [setA, lookupA]
    by_cases h : s' = s
    · rw [if_pos h.symm, if_pos h]
    · rw [if_neg (fun hc => h hc.symm), if_neg h]
  | cons kv rest ih =>
    obtain ⟨k, w⟩ := kv
    by_cases hk : k = s
    · subst hk
      simp only [setA, if_pos rfl, lookupA]
      by_cases h : k = s'
      · rw [if_pos h, if_pos h.symm]
      · rw [if_neg h, if_neg (fun hc => h hc.symm), if_neg h]
    · simp only [setA, if_neg hk, lookupA]
      by_cases h : k = s'
      · have hss : ¬ s' = s := fun hc => hk (h.trans hc)
        rw [if_pos h, if_neg hss, if_pos h]
      · rw [if_neg h, ih]
        by_cases hss : s' = s
        · rw [if_pos hss, if_pos hss]
        · rw [if_neg hss, if_neg hss, if_neg h]

lemma findIdx?_none_names (objs : List Obj) (name : String) :
    objs.findIdx? (fun o => o.name == name) = none ↔ ∀ o ∈ objs, o.name ≠ name := by
  rw [List.findIdx?_eq_none_iff]
  constructor
  · intro h o ho
    have := h o ho
    simpa using this
  · intro h o ho
    simpa using h o ho

lemma map_name_eq (l1 l2 : List Obj) (hlen : l1.length = l2.length)
    (h : ∀ j, j < l2.length → (getObj l1 j).name = (getObj l2 j).name) :
    l1.map Obj.name = l2.map Obj.name := by
  apply List.ext_getElem (by simp [hlen])
  intro j h1 h2
  simp only [List.getElem_map]
  rw [← getObj_eq_getElem l1 j (by simpa using h1), ← getObj_eq_getElem l2 j (by simpa using h2)]
  exact h j (by simpa using h2)

lemma set_append_lt {α : Type} (l : List α) (x y : α) (i : Nat) (h : i < l.length) :
    (l ++ [x]).set i y = l.set i y ++ [x] := by
  induction l generalizing i with
  | nil => simp at h
  | cons a as ihl =>
    cases i with
    | zero => simp
    | succ i =>
      simp only [List.cons_append, List.set_cons_succ]
      rw [ihl i (by simpa using h)]

lemma updObj_append_lt (l : List Obj) (x : Obj) (i : Nat) (f : Obj → Obj) (h : i < l.length) :
    updObj (l ++ [x]) i f = updObj l i f ++ [x] := by
  rw [updObj, updObj, getObj_append_lt l x i h, set_append_lt l x _ i h]

lemma strippedOf_pretty (dem : String → String) (o : Obj) (e : String) :
    strippedOf dem { o with prettyName := e } = strippedOf dem o := rfl

lemma getObj_append_cases (objs : List Obj) (rec : Obj) (j : Nat)
    (h : j < objs.length + 1) :
    (j < objs.length ∧ getObj (objs ++ [rec]) j = getObj objs j)
    ∨ (j = objs.length ∧ getObj (objs ++ [rec]) j = rec) := by
  by_cases hj : j < objs.length
  · exact Or.inl ⟨hj, getObj_append_lt _ _ _ hj⟩
  · have : j = objs.length := by omega
    subst this
    exact Or.inr ⟨rfl, getObj_append_last _ _⟩

/-- Appending a symbol without a stripped form preserves the table
invariant. -/
lemma tableInv_extA (dem : String → String) (objs : List Obj)
    (tbl : List (String × Option Nat)) (rec' : Obj)
    (hinv : TableInv dem objs tbl)
    (hnone : strippedOf dem rec' = none) :
    TableInv dem (objs ++ [rec']) tbl := by
  obtain ⟨h1, h2, h3⟩ := hinv
  have hlen : (objs ++ [rec']).length = objs.length + 1 := by simp
  refine ⟨?_, ?_, ?_⟩
  · intro str i hl
    obtain ⟨hi, hf, hp, hu⟩ := h1 str i hl
    refine ⟨by omega, ?_, ?_, ?_⟩
    · rw [getObj_append_lt _ _ _ hi]
      exact hf
    · rw [getObj_append_lt _ _ _ hi]
      exact hp
    · intro j hj hne
      rcases getObj_append_cases objs rec' j (by omega) with ⟨hjl, he⟩ | ⟨hjl, he⟩
      · rw [he]
        exact hu j hjl hne
      · rw [he, hnone]
        simp
  · intro str hl
    obtain ⟨⟨i, j, hi, hj, hij, hfi, hfj⟩, hall⟩ := h2 str hl
    refine ⟨⟨i, j, by omega, by omega, hij, ?_, ?_⟩, ?_⟩
    · rw [getObj_append_lt _ _ _ hi]; exact hfi
    · rw [getObj_append_lt _ _ _ hj]; exact hfj
    · intro j' hj' hfj'
      rcases getObj_append_cases objs rec' j' (by omega) with ⟨hjl, he⟩ | ⟨hjl, he⟩
      · rw [he] at hfj' ⊢
        exact hall j' hjl hfj'
      · rw [he] at hfj'
        rw [hnone] at hfj'
        cases hfj'
  · intro j hj str hf
    rcases getObj_append_cases objs rec' j (by omega) with ⟨hjl, he⟩ | ⟨hjl, he⟩
    · rw [he] at hf
      exact h3 j hjl str hf
    · rw [he, hnone] at hf
      cases hf

/-- Appending the first claimant of a stripped form (pretty name set to the
stripped form, table entry added) preserves the table invariant. -/
lemma tableInv_extB (dem : String → String) (objs : List Obj)
    (tbl : List (String × Option Nat)) (rec' : Obj) (str : String)
    (hinv : TableInv dem objs tbl)
    (hform : strippedOf dem rec' = some str)
    (hpretty : rec'.prettyName = str)
    (hvacant : lookupA tbl str = none) :
    TableInv dem (objs ++ [rec']) (setA tbl str (some objs.length)) := by
  obtain ⟨h1, h2, h3⟩ := hinv
  refine ⟨?_, ?_, ?_⟩
  · intro str' i hl
    rw [lookupA_setA] at hl
    by_cases hs : str' = str
    · subst hs
      rw [if_pos rfl] at hl
      injection hl with hl
      injection hl with hl
      subst hl
      refine ⟨by simp, ?_, ?_, ?_⟩
      · rw [getObj_append_last]
        exact hform
      · rw [getObj_append_last]
        exact hpretty
      · intro j hj hne
        have hjl : j < objs.length := by
          simp only [List.length_append, List.length_cons, List.length_nil] at hj
          omega
        rw [getObj_append_lt _ _ _ hjl]
        intro hfj
        obtain ⟨e, he⟩ := h3 j hjl str' hfj
        rw [hvacant] at he
        cases he
    · rw [if_neg hs] at hl
      obtain ⟨hi, hf, hp, hu⟩ := h1 str' i hl
      refine ⟨by simp; omega, ?_, ?_, ?_⟩
      · rw [getObj_append_lt _ _ _ hi]; exact hf
      · rw [getObj_append_lt _ _ _ hi]; exact hp
      · intro j hj hne
        have hj' : j < objs.length + 1 := by simpa using hj
        rcases getObj_append_cases objs rec' j hj' with ⟨hjl, he⟩ | ⟨hjl, he⟩
        · rw [he]
          exact hu j hjl hne
        · rw [he, hform]
          intro hc
          injection hc with hc
          exact hs hc.symm
  · intro str' hl
    rw [lookupA_setA] at hl
    by_cases hs : str' = str
    · rw [if_pos hs] at hl
      cases hl
    · rw [if_neg hs] at hl
      obtain ⟨⟨i, j, hi, hj, hij, hfi, hfj⟩, hall⟩ := h2 str' hl
      refine ⟨⟨i, j, by simp; omega, by simp; omega, hij, ?_, ?_⟩, ?_⟩
      · rw [getObj_append_lt _ _ _ hi]; exact hfi
      · rw [getObj_append_lt _ _ _ hj]; exact hfj
      · intro j' hj' hfj'
        have hj'' : j' < objs.length + 1 := by simpa using hj'
        rcases getObj_append_cases objs rec' j' hj'' with ⟨hjl, he⟩ | ⟨hjl, he⟩
        · rw [he] at hfj' ⊢
          exact hall j' hjl hfj'
        · rw [he, hform] at hfj'
          injection hfj' with hc
          exact absurd hc.symm hs
  · intro j hj str'' hf
    have hj' : j < objs.length + 1 := by simpa using hj
    rcases getObj_append_cases objs rec' j hj' with ⟨hjl, he⟩ | ⟨hjl, he⟩
    · rw [he] at hf
      obtain ⟨e, he'⟩ := h3 j hjl str'' hf
      by_cases hs : str'' = str
      · exact ⟨some objs.length, by rw [lookupA_setA, if_pos hs]⟩
      · exact ⟨e, by rw [lookupA_setA, if_neg hs]; exact he'⟩
    · rw [he, hform] at hf
      injection hf with hc
      subst hc
      exact ⟨some objs.length, by rw [lookupA_setA, if_pos rfl]⟩

/-- Appending a symbol whose stripped form already has a null table entry
(pretty name set to the full demangled name) preserves the invariant. -/
lemma tableInv_extD (dem : String → String) (objs : List Obj)
    (tbl : List (String × Option Nat)) (rec' : Obj) (str : String)
    (hinv : TableInv dem objs tbl)
    (hform : strippedOf dem rec' = some str)
    (hpretty : rec'.prettyName = dem rec'.name)
    (hnull : lookupA tbl str = some none) :
    TableInv dem (objs ++ [rec']) tbl := by
  obtain ⟨h1, h2, h3⟩ := hinv
  refine ⟨?_, ?_, ?_⟩
  · intro str' i hl
    have hs : str' ≠ str := by
      intro hc
      subst hc
      rw [hnull] at hl
      cases hl
    obtain ⟨hi, hf, hp, hu⟩ := h1 str' i hl
    refine ⟨by simp; omega, ?_, ?_, ?_⟩
    · rw [getObj_append_lt _ _ _ hi]; exact hf
    · rw [getObj_append_lt _ _ _ hi]; exact hp
    · intro j hj hne
      have hj' : j < objs.length + 1 := by simpa using hj
      rcases getObj_append_cases objs rec' j hj' with ⟨hjl, he⟩ | ⟨hjl, he⟩
      · rw [he]
        exact hu j hjl hne
      · rw [he, hform]
        intro hc
        injection hc with hc
        exact hs hc.symm
  · intro str' hl
    by_cases hs : str' = str
    · subst hs
      obtain ⟨⟨i, j, hi, hj, hij, hfi, hfj⟩, hall⟩ := h2 str' hnull
      refine ⟨⟨i, j, by simp; omega, by simp; omega, hij, ?_, ?_⟩, ?_⟩
      · rw [getObj_append_lt _ _ _ hi]; exact hfi
      · rw [getObj_append_lt _ _ _ hj]; exact hfj
      · intro j' hj' hfj'
        have hj'' : j' < objs.length + 1 := by simpa using hj'
        rcases getObj_append_cases objs rec' j' hj'' with ⟨hjl, he⟩ | ⟨hjl, he⟩
        · rw [he] at hfj' ⊢
          exact hall j' hjl hfj'
        · rw [he]
          exact hpretty
    · obtain ⟨⟨i, j, hi, hj, hij, hfi, hfj⟩, hall⟩ := h2 str' hl
      refine ⟨⟨i, j, by simp; omega, by simp; omega, hij, ?_, ?_⟩, ?_⟩
      · rw [getObj_append_lt _ _ _ hi]; exact hfi
      · rw [getObj_append_lt _ _ _ hj]; exact hfj
      · intro j' hj' hfj'
        have hj'' : j' < objs.length + 1 := by simpa using hj'
        rcases getObj_append_cases objs rec' j' hj'' with ⟨hjl, he⟩ | ⟨hjl, he⟩
        · rw [he] at hfj' ⊢
          exact hall j' hjl hfj'
        · rw [he, hform] at hfj'
          injection hfj' with hc
          exact absurd hc.symm hs
  · intro j hj str'' hf
    have hj' : j < objs.length + 1 := by simpa using hj
    rcases getObj_append_cases objs rec' j hj' with ⟨hjl, he⟩ | ⟨hjl, he⟩
    · rw [he] at hf
      exact h3 j hjl str'' hf
    · rw [he, hform] at hf
      injection hf with hc
      subst hc
      exact ⟨none, hnull⟩

/-- Appending a colliding symbol (pretty name set to its demangled name),
demoting the prior claimant (re-demangled) and nulling the table slot
preserves the invariant. -/
lemma tableInv_extC (dem : String → String) (objs : List Obj)
    (tbl : List (String × Option Nat)) (rec' : Obj) (str : String) (ci : Nat)
    (hinv : TableInv dem objs tbl)
    (hform : strippedOf dem rec' = some str)
    (hpretty : rec'.prettyName = dem rec'.name)
    (hclaim : lookupA tbl str = some (some ci)) :
    TableInv dem
      ((updObj objs ci (fun o => { o with prettyName := dem (getObj objs ci).name })) ++ [rec'])
      (setA tbl str none) := by
  obtain ⟨h1, h2, h3⟩ := hinv
  obtain ⟨hci, hfci, hpci, huci⟩ := h1 str ci hclaim
  set objsC := updObj objs ci (fun o => { o with prettyName := dem (getObj objs ci).name })
    with hobjsC
  have hlenC : objsC.length = objs.length := length_updObj _ _ _
  have hlenCA : (objsC ++ [rec']).length = objs.length + 1 := by
    simp [hlenC]
  have hformC : ∀ j, strippedOf dem (getObj objsC j) = strippedOf dem (getObj objs j) := by
    intro j
    by_cases hj : j = ci
    · subst hj
      rw [hobjsC, getObj_updObj_self _ _ _ hci, strippedOf_pretty]
    · rw [hobjsC, getObj_updObj_ne _ _ _ _ hj]
  have hsameC : ∀ j, j ≠ ci → getObj objsC j = getObj objs j := by
    intro j hj
    rw [hobjsC, getObj_updObj_ne _ _ _ _ hj]
  have hgetCi : getObj objsC ci = { getObj objs ci with prettyName := dem (getObj objs ci).name } := by
    rw [hobjsC, getObj_updObj_self _ _ _ hci]
  refine ⟨?_, ?_, ?_⟩
  · intro str' i hl
    rw [lookupA_setA] at hl
    by_cases hs : str' = str
    · rw [if_pos hs] at hl
      cases hl
    · rw [if_neg hs] at hl
      obtain ⟨hi, hf, hp, hu⟩ := h1 str' i hl
      have hine : i ≠ ci := by
        intro hc
        subst hc
        rw [hfci] at hf
        injection hf with hf
        exact hs hf.symm
      refine ⟨by omega, ?_, ?_, ?_⟩
      · rw [getObj_append_lt _ _ _ (by omega : i < objsC.length), hsameC i hine]
        exact hf
      · rw [getObj_append_lt _ _ _ (by omega : i < objsC.length), hsameC i hine]
        exact hp
      · intro j hj hne
        have hj' : j < objs.length + 1 := by
          simp only [List.length_append, List.length_cons, List.length_nil] at hj
          omega
        rcases getObj_append_cases objsC rec' j (by omega) with ⟨hjl, he⟩ | ⟨hjl, he⟩
        · rw [he, hformC]
          exact hu j (by omega) hne
        · rw [he, hform]
          intro hc
          injection hc with hc
          exact hs hc.symm
  · intro str' hl
    rw [lookupA_setA] at hl
    by_cases hs : str' = str
    · subst hs
      refine ⟨⟨ci, objs.length, by omega, by omega, by omega, ?_, ?_⟩, ?_⟩
      · rw [getObj_append_lt _ _ _ (by omega : ci < objsC.length), hformC]
        exact hfci
      · have : objs.length = objsC.length := hlenC.symm
        rw [this, getObj_append_last]
        exact hform
      · intro j hj hfj
        rcases getObj_append_cases objsC rec' j (by omega) with ⟨hjl, he⟩ | ⟨hjl, he⟩
        · rw [he] at hfj ⊢
          rw [hformC] at hfj
          have hjci : j = ci := by
            by_contra hne
            exact huci j (by omega) hne hfj
          subst hjci
          rw [hgetCi]
        · rw [he] at hfj ⊢
          exact hpretty
    · rw [if_neg hs] at hl
      obtain ⟨⟨i, j, hi, hj, hij, hfi, hfj⟩, hall⟩ := h2 str' hl
      refine ⟨⟨i, j, by omega, by omega, hij, ?_, ?_⟩, ?_⟩
      · rw [getObj_append_lt _ _ _ (by omega : i < objsC.length), hformC]
        exact hfi
      · rw [getObj_append_lt _ _ _ (by omega : j < objsC.length), hformC]
        exact hfj
      · intro j' hj' hfj'
        rcases getObj_append_cases objsC rec' j' (by omega) with ⟨hjl, he⟩ | ⟨hjl, he⟩
        · rw [he] at hfj' ⊢
          rw [hformC] at hfj'
          have hne : j' ≠ ci := by
            intro hc
            subst hc
            rw [hfci] at hfj'
            injection hfj' with hc'
            exact hs hc'.symm
          rw [hsameC j' hne]
          exact hall j' (by omega) hfj'
        · rw [he, hform] at hfj'
          injection hfj' with hc
          exact absurd hc.symm hs
  · intro j hj str'' hf
    rcases getObj_append_cases objsC rec' j (by
        simp only [List.length_append, List.length_cons, List.length_nil] at hj
        omega) with ⟨hjl, he⟩ | ⟨hjl, he⟩
    · rw [he, hformC] at hf
      obtain ⟨e, he'⟩ := h3 j (by omega) str'' hf
      by_cases hs : str'' = str
      · exact ⟨none, by rw [lookupA_setA, if_pos hs]⟩
      · exact ⟨e, by rw [lookupA_setA, if_neg hs]; exact he'⟩
    · rw [he, hform] at hf
      injection hf with hc
      subst hc
      exact ⟨none, by rw [lookupA_setA, if_pos rfl]⟩

lemma updObj_append_last (l : List Obj) (x : Obj) (f : Obj → Obj) :
    updObj (l ++ [x]) l.length f = l ++ [f x] := by
  rw [updObj, getObj_append_last, set_append_last]

/-- A fresh-name `AddObject` call preserves the table invariant and appends
exactly one name. -/
lemma addObject_inv (dem : String → String) (p : Program) (name : String)
    (vmaddr size : Nat) (data : Bool)
    (hfresh : p.objects.findIdx? (fun o => o.name == name) = none)
    (hinv : TableInv dem p.objects p.strippedPrettyNames) :
    TableInv dem (p.addObject dem name vmaddr size data).1.objects
      (p.addObject dem name vmaddr size data).1.strippedPrettyNames
    ∧ (p.addObject dem name vmaddr size data).1.objects.map Obj.name
        = p.objects.map Obj.name ++ [name] := by
  have hc := addObjectCore_fresh hfresh vmaddr size data
  set rec : Obj := ({ ({ name := name } : Obj) with
      id := p.nextId, vmaddr := vmaddr, data := data, name := name }).setSize size with hrec
  have hrecname : rec.name = name := rfl
  have haddobj : (p.addObject dem name vmaddr size data).1
      = prettyNames dem (addObjectCore p name vmaddr size data).1
          (addObjectCore p name vmaddr size data).2 name := rfl
  rcases hsn : stripName (dem name) with ⟨b, str⟩
  cases b
  · have hobj : (p.addObject dem name vmaddr size data).1.objects
        = p.objects ++ [{ rec with prettyName := dem name }] := by
      rw [haddobj, hc]
      simp only [prettyNames, hsn]
      exact updObj_append_last p.objects rec _
    have htbl : (p.addObject dem name vmaddr size data).1.strippedPrettyNames
        = p.strippedPrettyNames := by
      rw [haddobj, hc]
      simp only [prettyNames, hsn]
    rw [hobj, htbl]
    refine ⟨tableInv_extA dem p.objects p.strippedPrettyNames _ hinv ?_, ?_⟩
    · show strippedOf dem { rec with prettyName := dem name } = none
      rw [strippedOf_pretty]
      show (match stripName (dem rec.name) with
        | (true, str) => some str
        | (false, _) => none) = none
      rw [hrecname, hsn]
    · rw [List.map_append]
      rfl
  · cases hl : lookupA p.strippedPrettyNames str with
    | none =>
      have hobj : (p.addObject dem name vmaddr size data).1.objects
          = p.objects ++ [{ rec with prettyName := str }] := by
        rw [haddobj, hc]
        simp only [prettyNames, hsn, hl]
        exact updObj_append_last p.objects rec _
      have htbl : (p.addObject dem name vmaddr size data).1.strippedPrettyNames
          = setA p.strippedPrettyNames str (some p.objects.length) := by
        rw [haddobj, hc]
        simp only [prettyNames, hsn, hl]
      rw [hobj, htbl]
      refine ⟨tableInv_extB dem p.objects p.strippedPrettyNames _ str hinv ?_ rfl hl, ?_⟩
      · show strippedOf dem { rec with prettyName := str } = some str
        rw [strippedOf_pretty]
        show (match stripName (dem rec.name) with
          | (true, str) => some str
          | (false, _) => none) = some str
        rw [hrecname, hsn]
      · rw [List.map_append]
        rfl
    | some e =>
      cases e with
      | none =>
        have hobj : (p.addObject dem name vmaddr size data).1.objects
            = p.objects ++ [{ rec with prettyName := dem name }] := by
          rw [haddobj, hc]
          simp only [prettyNames, hsn, hl]
          exact updObj_append_last p.objects rec _
        have htbl : (p.addObject dem name vmaddr size data).1.strippedPrettyNames
            = p.strippedPrettyNames := by
          rw [haddobj, hc]
          simp only [prettyNames, hsn, hl]
        rw [hobj, htbl]
        refine ⟨tableInv_extD dem p.objects p.strippedPrettyNames _ str hinv ?_ rfl hl, ?_⟩
        · show strippedOf dem { rec with prettyName := dem name } = some str
          rw [strippedOf_pretty]
          show (match stripName (dem rec.name) with
            | (true, str) => some str
            | (false, _) => none) = some str
          rw [hrecname, hsn]
        · rw [List.map_append]
          rfl
      | some ci =>
        have hci : ci < p.objects.length := (hinv.1 str ci hl).1
        have e1 : updObj (p.objects ++ [rec]) p.objects.length
              (fun o => { o with prettyName := dem name })
            = p.objects ++ [{ rec with prettyName := dem name }] :=
          updObj_append_last p.objects rec _
        have e2 : getObj (p.objects ++ [{ rec with prettyName := dem name }]) ci
            = getObj p.objects ci := getObj_append_lt _ _ _ hci
        have e3 : updObj (p.objects ++ [{ rec with prettyName := dem name }]) ci
              (fun o => { o with prettyName := dem (getObj p.objects ci).name })
            = updObj p.objects ci (fun o => { o with prettyName := dem (getObj p.objects ci).name })
              ++ [{ rec with prettyName := dem name }] :=
          updObj_append_lt _ _ _ _ hci
        have hobj : (p.addObject dem name vmaddr size data).1.objects
            = updObj p.objects ci (fun o => { o with prettyName := dem (getObj p.objects ci).name })
              ++ [{ rec with prettyName := dem name }] := by
          rw [haddobj, hc]
          simp only [prettyNames, hsn, hl]
          show updObj (updObj (p.objects ++ [rec]) p.objects.length
              (fun o => { o with prettyName := dem name })) ci _ = _
          rw [e1, e2, e3]
        have htbl : (p.addObject dem name vmaddr size data).1.strippedPrettyNames
            = setA p.strippedPrettyNames str none := by
          rw [haddobj, hc]
          simp only [prettyNames, hsn, hl]
        rw [hobj, htbl]
        refine ⟨tableInv_extC dem p.objects p.strippedPrettyNames _ str ci hinv ?_ rfl hl, ?_⟩
        · show strippedOf dem { rec with prettyName := dem name } = some str
          rw [strippedOf_pretty]
          show (match stripName (dem rec.name) with
            | (true, str) => some str
            | (false, _) => none) = some str
          rw [hrecname, hsn]
        · rw [List.map_append]
          have hn : (updObj p.objects ci
              (fun o => { o with prettyName := dem (getObj p.objects ci).name })).map Obj.name
              = p.objects.map Obj.name := by
            apply map_name_eq _ _ (length_updObj _ _ _)
            intro j hj
            by_cases hjc : j = ci
            · subst hjc
              rw [getObj_updObj_self _ _ _ hci]
            · rw [getObj_updObj_ne _ _ _ _ hjc]
          rw [hn]
          rfl

lemma tableInv_empty (dem : String → String) :
    TableInv dem emptyProgram.objects emptyProgram.strippedPrettyNames := by
  refine ⟨?_, ?_, ?_⟩
  · intro str i h
    simp [emptyProgram, lookupA] at h
  · intro str h
    simp [emptyProgram, lookupA] at h
  · intro j hj
    exact absurd hj (by simp [emptyProgram])

/-- Replaying a list of `add_object` calls with pairwise-distinct fresh names
preserves the table invariant and appends exactly those names. -/
lemma foldl_addObject_inv (dem : String → String) (adds : List AddCall) :
    ∀ (p : Program),
    TableInv dem p.objects p.strippedPrettyNames →
    (adds.map AddCall.name).Nodup →
    (∀ a ∈ adds, ∀ o ∈ p.objects, o.name ≠ a.name) →
    TableInv dem
        (adds.foldl (fun q a => (q.addObject dem a.name a.vmaddr a.size a.data).1) p).objects
        (adds.foldl (fun q a => (q.addObject dem a.name a.vmaddr a.size a.data).1)
          p).strippedPrettyNames
    ∧ (adds.foldl (fun q a => (q.addObject dem a.name a.vmaddr a.size a.data).1)
          p).objects.map Obj.name
        = p.objects.map Obj.name ++ adds.map AddCall.name := by
  induction adds with
  | nil =>
    intro p hinv _ _
    simpa using hinv
  | cons a rest ih =>
    intro p hinv hnd hdisj
    simp only [List.foldl_cons]
    have hfresh : p.objects.findIdx? (fun o => o.name == a.name) = none :=
      (findIdx?_none_names _ _).2 (fun o ho => hdisj a (List.mem_cons_self a rest) o ho)
    obtain ⟨hinv2, hnames2⟩ := addObject_inv dem p a.name a.vmaddr a.size a.data hfresh hinv
    have hnd0 : a.name ∉ rest.map AddCall.name ∧ (rest.map AddCall.name).Nodup := by
      rw [List.map_cons] at hnd
      exact List.nodup_cons.mp hnd
    have hdisj2 : ∀ b ∈ rest,
        ∀ o ∈ (p.addObject dem a.name a.vmaddr a.size a.data).1.objects, o.name ≠ b.name := by
      intro b hb o ho hco
      have hmem : o.name
          ∈ (p.addObject dem a.name a.vmaddr a.size a.data).1.objects.map Obj.name :=
        List.mem_map.mpr ⟨o, ho, rfl⟩
      rw [hnames2] at hmem
      rcases List.mem_append.mp hmem with hm | hm
      · obtain ⟨o2, ho2, ho2n⟩ := List.mem_map.mp hm
        exact hdisj b (List.mem_cons_of_mem a hb) o2 ho2 (ho2n.trans hco)
      · have hoa : o.name = a.name := by simpa using hm
        apply hnd0.1
        rw [← hoa, hco]
        exact List.mem_map.mpr ⟨b, hb, rfl⟩
    obtain ⟨hI, hN⟩ := ih (p.addObject dem a.name a.vmaddr a.size a.data).1 hinv2 hnd0.2 hdisj2
    refine ⟨hI, ?_⟩
    rw [hN, hnames2, List.map_cons]
    simp

lemma buildProgram_inv (dem : String → String) (adds : List AddCall)
    (hnd : (adds.map AddCall.name).Nodup) :
    TableInv dem (buildProgram dem adds).objects (buildProgram dem adds).strippedPrettyNames
    ∧ (buildProgram dem adds).objects.map Obj.name = adds.map AddCall.name := by
  have h := foldl_addObject_inv dem adds emptyProgram (tableInv_empty dem) hnd
      (fun a _ o ho => absurd ho (by simp [emptyProgram]))
  simpa [buildProgram, emptyProgram] using h

/-- C8 (corrected): after any sequence of `add_object` calls with pairwise
distinct names, if two distinct symbols share the stripped form of their
demangled names then both wear their full demangled names as pretty names;
and a symbol whose stripped form is unique wears that stripped form. -/
theorem c8_amended (dem : String → String) (adds : List AddCall)
    (hnd : (adds.map AddCall.name).Nodup) :
    (∀ i j str, i < (buildProgram dem adds).objects.length →
        j < (buildProgram dem adds).objects.length → i ≠ j →
        strippedOf dem (getObj (buildProgram dem adds).objects i) = some str →
        strippedOf dem (getObj (buildProgram dem adds).objects j) = some str →
        (getObj (buildProgram dem adds).objects i).prettyName
            = dem (getObj (buildProgram dem adds).objects i).name
        ∧ (getObj (buildProgram dem adds).objects j).prettyName
            = dem (getObj (buildProgram dem adds).objects j).name)
    ∧ (∀ i str, i < (buildProgram dem adds).objects.length →
        strippedOf dem (getObj (buildProgram dem adds).objects i) = some str →
        (∀ j, j < (buildProgram dem adds).objects.length → j ≠ i →
            strippedOf dem (getObj (buildProgram dem adds).objects j) ≠ some str) →
        (getObj (buildProgram dem adds).objects i).prettyName = str) := by
  obtain ⟨⟨h1, h2, h3⟩, -⟩ := buildProgram_inv dem adds hnd
  constructor
  · intro i j str hi hj hij hsi hsj
    obtain ⟨e, he⟩ := h3 i hi str hsi
    cases e with
    | some k =>
      obtain ⟨hk, hsk, hpk, huniq⟩ := h1 str k he
      by_cases hik : i = k
      · exact absurd hsj (huniq j hj (fun hc => hij (hik.trans hc.symm)))
      · exact absurd hsi (huniq i hi hik)
    | none =>
      obtain ⟨-, hall⟩ := h2 str he
      exact ⟨hall i hi hsi, hall j hj hsj⟩
  · intro i str hi hsi huniq
    obtain ⟨e, he⟩ := h3 i hi str hsi
    cases e with
    | some k =>
      obtain ⟨hk, hsk, hpk, -⟩ := h1 str k he
      by_cases hik : k = i
      · rw [← hik] at hsi ⊢
        exact hpk
      · exact absurd hsk (huniq k hk hik)
    | none =>
      obtain ⟨⟨a, b, ha, hb, hab, hsa, hsb⟩, -⟩ := h2 str he
      by_cases hai : a = i
      · rw [hai] at hab
        exact absurd hsb (huniq b hb (fun hc => hab hc.symm))
      · exact absurd hsa (huniq a ha hai)

/-- The add_object sequence of spec scenario 6 with distinct names:
two symbols sharing the stripped form "foo" and one alone with "bar". -/
def c8Adds : List AddCall :=
  [{ name := "foo(int)" }, { name := "foo(double)" }, { name := "bar(int)" }]

/-- Witness for `c8_amended`: on scenario 6 the colliding pair keeps the full
demangled names and the unique symbol gets the stripped form "bar". -/
theorem c8_amended_witness :
    ((getObj (buildProgram demId c8Adds).objects 0).prettyName
        = demId (getObj (buildProgram demId c8Adds).objects 0).name
      ∧ (getObj (buildProgram demId c8Adds).objects 1).prettyName
        = demId (getObj (buildProgram demId c8Adds).objects 1).name)
    ∧ (getObj (buildProgram demId c8Adds).objects 2).prettyName = "bar" :=
  ⟨(c8_amended demId c8Adds (by decide)).1 0 1 "foo" (by decide) (by decide)
      (by decide) (by decide) (by decide),
   (c8_amended demId c8Adds (by decide)).2 2 "bar" (by decide) (by decide) (by decide)⟩
